import Mathlib

/-!
Verification development for the Gaussian-graph research-agent ingestion engine.

Strings are modelled as lists of Unicode code points (`Str := List Nat`).
Floating-point confidences are modelled as rationals: the only operations the
code performs on them are comparison, `max`, `min` and substitution of the
constant `0.5`, all of which are exact.

Each definition is a shallow embedding of the corresponding TypeScript
function; the source file and symbol are named in its doc comment.
-/

namespace GaussianGraph

/-- Strings as lists of Unicode code points. -/
abbrev Str := List Nat

/-! ## Canonicalizer

`normalizeName` in `node-repository.ts` / `edge-repository.ts` /
`orchestrator.ts`:
`name.toLowerCase().trim().replace(/\s+/g, ' ').replace(/[^\w\s-]/g, '')`.
-/

/-- One character of `toLowerCase()`: ASCII upper-case letters map to the
corresponding lower-case letters, everything else is unchanged. -/
def lowerChar (c : Nat) : Nat :=
  if 65 ≤ c ∧ c ≤ 90 then c + 32 else c

/-- The whitespace class `\s` (ASCII part): space, tab, LF, VT, FF, CR. -/
def isWS (c : Nat) : Bool :=
  c == 32 || c == 9 || c == 10 || c == 11 || c == 12 || c == 13

/-- The word-character class `\w`: digits, ASCII letters, underscore. -/
def isWordChar (c : Nat) : Bool :=
  (48 ≤ c && c ≤ 57) || (65 ≤ c && c ≤ 90) || (97 ≤ c && c ≤ 122) || c == 95

/-- Characters kept by `.replace(/[^\w\s-]/g, '')`. -/
def keepChar (c : Nat) : Bool :=
  isWordChar c || isWS c || c == 45

/-- `toLowerCase()`. -/
def lower (s : Str) : Str := s.map lowerChar

/-- `trim()`: drop whitespace from both ends. -/
def trim (s : Str) : Str :=
  ((s.dropWhile isWS).reverse.dropWhile isWS).reverse

/-- Worker for `.replace(/\s+/g, ' ')`: the flag records whether the previous
character was whitespace, so exactly the first character of each maximal
whitespace run is emitted, as a space (code point 32). -/
def collapseAux : Bool → Str → Str
  | _, [] => []
  | prevWS, c :: rest =>
    if isWS c then
      if prevWS then collapseAux true rest
      else 32 :: collapseAux true rest
    else c :: collapseAux false rest

/-- `.replace(/\s+/g, ' ')`: every maximal run of whitespace becomes one
space (code point 32). -/
def collapse (s : Str) : Str := collapseAux false s

/-- `.replace(/[^\w\s-]/g, '')`. -/
def strip (s : Str) : Str := s.filter keepChar

/-- The canonicalizer `normalizeName`, in the source's operation order. -/
def normalizeName (s : Str) : Str :=
  strip (collapse (trim (lower s)))

/-! ### Canonical-shape predicates (proof vocabulary, not source code) -/

/-- The string does not start with whitespace. -/
def noLeadWS : Str → Bool
  | [] => true
  | c :: _ => !isWS c

/-- The string does not end with whitespace. -/
def noTrailWS (s : Str) : Bool := noLeadWS s.reverse

/-- Every whitespace character is a space (32) and is followed by a
non-whitespace character or the end of the string. -/
def goodRuns : Str → Bool
  | [] => true
  | [c] => !isWS c || c == 32
  | c :: d :: rest => (!isWS c || (c == 32 && !isWS d)) && goodRuns (d :: rest)

/-! ## Data model

Metadata (`JSONB` columns, `Record<string, any>` in TypeScript) is an
association list from string keys to opaque payloads; the code only ever
merges metadata shallowly, never inspecting values. Confidences (`FLOAT`
columns) are rationals: the code only compares, clamps and defaults them. -/

abbrev Meta := List (String × String)

/-- SQL `GREATEST` / JS `Math.max` on two rationals, written with the
executable comparison `Rat.blt` so that concrete instances evaluate. -/
def qmax (a b : ℚ) : ℚ := if Rat.blt a b then b else a

/-- JS `Math.min` on two rationals. -/
def qmin (a b : ℚ) : ℚ := if Rat.blt b a then b else a

/-- First-match association-list lookup (JSON object field access). -/
def metaLookup (k : String) : Meta → Option String
  | [] => none
  | p :: t => if p.1 = k then some p.2 else metaLookup k t

/-- SQL `COALESCE(a, b)`. -/
def coalesce {α : Type} (a b : Option α) : Option α :=
  match a with
  | some x => some x
  | none => b

/-- Postgres `jsonb` concatenation `old || new`: shallow union where keys of
`new` overwrite keys of `old`. -/
def metaMerge (old new : Meta) : Meta :=
  new ++ old.filter (fun p => (metaLookup p.1 new).isNone)

/-- `node_type` enum of the schema. -/
inductive NodeType
  | paper | concept | method | dataset | metric | author
  | technique | application | challenge | result
deriving DecidableEq

/-- `edge_type` enum of the schema (`extends` is spelled `extends_` because
it is a Lean keyword). -/
inductive EdgeType
  | cites | improves_on | extends_ | compares_with | builds_upon | contradicts
  | introduces | applies | evaluates | addresses
  | related_to | enables | requires | alternative_to | generalizes | specializes
  | outperforms | combines_with | replaces
  | authored_by | uses_dataset | measures_with | solves | inspired_by
deriving DecidableEq

/-- A row of the `nodes` table (timestamp columns omitted: no claim
mentions them). -/
structure Node where
  id : Nat
  type : NodeType
  name : Str
  canonical_name : Str
  metadata : Meta
  extracted_by : String
  extraction_confidence : ℚ
deriving DecidableEq

/-- The `nodes` table plus an id sequence. -/
structure NodeStore where
  nodes : List Node
  nextId : Nat
deriving DecidableEq

/-- Lookup on the unique key `(type, canonical_name)`. -/
def findNodeKey (t : NodeType) (canon : Str) : List Node → Option Node
  | [] => none
  | n :: rest =>
    if n.type = t ∧ n.canonical_name = canon then some n
    else findNodeKey t canon rest

/-- Number of rows with key `(type, canonical_name)`. -/
def countNodeKey (t : NodeType) (canon : Str) : List Node → Nat
  | [] => 0
  | n :: rest =>
    (if n.type = t ∧ n.canonical_name = canon then 1 else 0)
      + countNodeKey t canon rest

/-- The `UNIQUE(type, canonical_name)` constraint: no two rows share a key. -/
def nodesUniq : List Node → Bool
  | [] => true
  | n :: rest =>
    !(rest.any (fun m =>
        decide (m.type = n.type ∧ m.canonical_name = n.canonical_name)))
      && nodesUniq rest

/-- The `DO UPDATE SET` clause of `NodeRepository.upsert`, applied to the
(unique) conflicting row: `metadata = nodes.metadata || EXCLUDED.metadata,
extraction_confidence = GREATEST(old, new)`. -/
def applyNodeMerge (t : NodeType) (canon : Str) (metadata : Meta)
    (confidence : ℚ) (m : Node) : Node :=
  if m.type = t ∧ m.canonical_name = canon then
    { m with metadata := metaMerge m.metadata metadata,
             extraction_confidence := qmax m.extraction_confidence confidence }
  else m

/-- `NodeRepository.upsert` (node-repository.ts): insert on the key
`(type, canonical_name = normalizeName name)` with conflict resolution;
returns the row id. -/
def NodeStore.upsert (s : NodeStore) (t : NodeType) (name : Str)
    (metadata : Meta) (extractedBy : String) (confidence : ℚ) :
    Nat × NodeStore :=
  let canon := normalizeName name
  match findNodeKey t canon s.nodes with
  | some n =>
    (n.id,
     { s with nodes :=
         s.nodes.map (applyNodeMerge t canon metadata confidence) })
  | none =>
    (s.nextId,
     { nodes := s.nodes ++
         [{ id := s.nextId, type := t, name := name,
            canonical_name := canon, metadata := metadata,
            extracted_by := extractedBy, extraction_confidence := confidence }],
       nextId := s.nextId + 1 })

/-- A row of the `edges` table (timestamps omitted). -/
structure Edge where
  id : Nat
  type : EdgeType
  source_id : Nat
  target_id : Nat
  description : Option String
  evidence : Option String
  confidence : ℚ
  extracted_by : String
  metadata : Meta
deriving DecidableEq

/-- The `edges` table plus an id sequence. -/
structure EdgeStore where
  edges : List Edge
  nextId : Nat
deriving DecidableEq

/-- Lookup on the unique key `(type, source_id, target_id)`. -/
def findEdgeKey (t : EdgeType) (src tgt : Nat) : List Edge → Option Edge
  | [] => none
  | e :: rest =>
    if e.type = t ∧ e.source_id = src ∧ e.target_id = tgt then some e
    else findEdgeKey t src tgt rest

/-- Number of rows with key `(type, source_id, target_id)`. -/
def countEdgeKey (t : EdgeType) (src tgt : Nat) : List Edge → Nat
  | [] => 0
  | e :: rest =>
    (if e.type = t ∧ e.source_id = src ∧ e.target_id = tgt then 1 else 0)
      + countEdgeKey t src tgt rest

/-- The `UNIQUE(type, source_id, target_id)` constraint. -/
def edgesUniq : List Edge → Bool
  | [] => true
  | e :: rest =>
    !(rest.any (fun x => decide (x.type = e.type ∧ x.source_id = e.source_id
        ∧ x.target_id = e.target_id)))
      && edgesUniq rest

/-- JavaScript `value || null` applied to an optional string: an empty
string is coerced to null. -/
def orNull (o : Option String) : Option String :=
  match o with
  | some "" => none
  | some v => some v
  | none => none

/-- The `DO UPDATE SET` clause of `EdgeRepository.create`, applied to the
(unique) conflicting row: `description = COALESCE(EXCLUDED.description,
edges.description), evidence = COALESCE(EXCLUDED.evidence, edges.evidence),
confidence = GREATEST(old, new), metadata = edges.metadata ||
EXCLUDED.metadata`. -/
def applyEdgeMerge (t : EdgeType) (src tgt : Nat) (d ev : Option String)
    (confidence : ℚ) (metadata : Meta) (x : Edge) : Edge :=
  if x.type = t ∧ x.source_id = src ∧ x.target_id = tgt then
    { x with description := coalesce d x.description,
             evidence := coalesce ev x.evidence,
             confidence := qmax x.confidence confidence,
             metadata := metaMerge x.metadata metadata }
  else x

/-- `EdgeRepository.create` (edge-repository.ts): insert on the key
`(type, source_id, target_id)`; `ON CONFLICT DO UPDATE SET description =
COALESCE(EXCLUDED.description, edges.description), evidence =
COALESCE(EXCLUDED.evidence, edges.evidence), confidence = GREATEST(old,
new), metadata = edges.metadata || EXCLUDED.metadata`; the inserted
description/evidence are `${description || null}` / `${evidence || null}`. -/
def EdgeStore.create (s : EdgeStore) (t : EdgeType) (sourceId targetId : Nat)
    (description evidence : Option String) (confidence : ℚ)
    (extractedBy : String) (metadata : Meta) : Nat × EdgeStore :=
  let d := orNull description
  let ev := orNull evidence
  match findEdgeKey t sourceId targetId s.edges with
  | some e =>
    (e.id,
     { s with edges :=
         s.edges.map (applyEdgeMerge t sourceId targetId d ev confidence
           metadata) })
  | none =>
    (s.nextId,
     { edges := s.edges ++
         [{ id := s.nextId, type := t,
            source_id := sourceId, target_id := targetId,
            description := d, evidence := ev, confidence := confidence,
            extracted_by := extractedBy, metadata := metadata }],
       nextId := s.nextId + 1 })

/-! ## Extraction data and the agents -/

/-- A validated extracted entity (`ExtractedEntity` in types/index.ts). -/
structure ExtractedEntity where
  name : Str
  type : NodeType
  description : Option String
  confidence : ℚ
  context : Option String
  metadata : Option Meta
deriving DecidableEq

/-- A validated extracted relationship (`ExtractedRelationship`). -/
structure ExtractedRelationship where
  source : Str
  target : Str
  type : EdgeType
  description : Option String
  evidence : Option String
  confidence : ℚ
  metadata : Option Meta
deriving DecidableEq

/-- An entity candidate as parsed from the capability's JSON, before
normalization: its confidence may be absent. -/
structure RawEntity where
  name : Str
  type : NodeType
  description : Option String
  confidence : Option ℚ
  context : Option String
  metadata : Option Meta
deriving DecidableEq

/-- A relationship candidate as parsed from the capability's JSON. -/
structure RawRelationship where
  source : Str
  target : Str
  type : EdgeType
  description : Option String
  evidence : Option String
  confidence : Option ℚ
  metadata : Option Meta
deriving DecidableEq

/-- `Math.max(0, Math.min(1, confidence || 0.5))`: a missing confidence, and
the falsy value `0`, become `0.5` before clamping to `[0, 1]`. -/
def normalizeConfidence (c : Option ℚ) : ℚ :=
  qmax 0 (qmin 1 (match c with
    | none => mkRat 1 2
    | some v => if v = 0 then mkRat 1 2 else v))

/-- The per-candidate normalization of `EntityExtractorAgent.process`
(entity-extractor.ts): `{...entity, confidence: Math.max(0, Math.min(1,
entity.confidence || 0.5)), metadata: entity.metadata || {}}`. -/
def EntityExtractorAgent.normalizeEntity (e : RawEntity) : ExtractedEntity :=
  { name := e.name, type := e.type, description := e.description,
    confidence := normalizeConfidence e.confidence,
    context := e.context, metadata := some (e.metadata.getD []) }

/-- The map over parsed entities in `EntityExtractorAgent.process`. -/
def EntityExtractorAgent.normalizeEntities (es : List RawEntity) :
    List ExtractedEntity :=
  es.map EntityExtractorAgent.normalizeEntity

/-- The filter-and-normalize step of `RelationshipExtractorAgent.process`
(relationship-extractor.ts): keep a relationship only when both endpoint
names case-insensitively match an extracted entity or a known paper title,
then normalize confidence and default metadata. -/
def RelationshipExtractorAgent.normalizeRelationships
    (entities : List ExtractedEntity) (existingPapers : List Str)
    (rels : List RawRelationship) : List ExtractedRelationship :=
  (rels.filter (fun rel =>
      (entities.any (fun e => decide (lower e.name = lower rel.source))
        || existingPapers.any (fun p => decide (lower p = lower rel.source)))
      && (entities.any (fun e => decide (lower e.name = lower rel.target))
        || existingPapers.any (fun p => decide (lower p = lower rel.target)))))
    |>.map (fun rel =>
      { source := rel.source, target := rel.target, type := rel.type,
        description := rel.description, evidence := rel.evidence,
        confidence := normalizeConfidence rel.confidence,
        metadata := some (rel.metadata.getD []) })

/-! ## Orchestrator (orchestrator.ts) -/

/-- First-match lookup in a name-keyed association list (`Map.get`). -/
def alookup {β : Type} (k : Str) : List (Str × β) → Option β
  | [] => none
  | p :: t => if p.1 = k then some p.2 else alookup k t

/-- One step of `AgentOrchestrator.validateEntities`: the `Map` keyed by the
normalized name, kept in insertion order; an entry is replaced only by a
strictly more confident later candidate. -/
def dedupStep (seen : List (Str × ExtractedEntity)) (e : ExtractedEntity) :
    List (Str × ExtractedEntity) :=
  let k := normalizeName e.name
  match alookup k seen with
  | none => seen ++ [(k, e)]
  | some ex =>
    if e.confidence > ex.confidence then
      seen.map (fun p => if p.1 = k then (k, e) else p)
    else seen

/-- `AgentOrchestrator.validateEntities`. -/
def validateEntities (entities : List ExtractedEntity) :
    List ExtractedEntity :=
  (entities.foldl dedupStep []).map (fun p => p.2)

/-- `AgentOrchestrator.validateRelationships`: keep a relationship when at
least one endpoint's canonical name is among the validated entities. -/
def validateRelationships (rels : List ExtractedRelationship)
    (entities : List ExtractedEntity) : List ExtractedRelationship :=
  let names := entities.map (fun e => normalizeName e.name)
  rels.filter (fun rel =>
    names.contains (normalizeName rel.source)
      || names.contains (normalizeName rel.target))

/-- Proof vocabulary (not source code): the running best candidate of the
dedup loop — replaced only by a strictly more confident newcomer. -/
def bestStep (acc : Option ExtractedEntity) (e : ExtractedEntity) :
    Option ExtractedEntity :=
  match acc with
  | none => some e
  | some b => if b.confidence < e.confidence then some e else some b

/-- Proof vocabulary: the entity the dedup loop retains from a group. -/
def bestOf (g : List ExtractedEntity) : Option ExtractedEntity :=
  g.foldl bestStep none

/-- Proof vocabulary: the `seen` map is keyed by the canonical names of its
values and has distinct keys. -/
def seenWF (seen : List (Str × ExtractedEntity)) : Prop :=
  (∀ p ∈ seen, normalizeName p.2.name = p.1)
    ∧ seen.Pairwise (fun a b => a.1 ≠ b.1)

/-- A row of `extraction_logs`; `extraction_type` is a free string in the
source (`'entity'`, `'relationship'`, `'full_pipeline'`). -/
structure ExtractionRecord where
  paper_id : Nat
  agent_name : String
  extraction_type : String
  success : Bool
  error_message : Option String
deriving DecidableEq

/-- `AgentOrchestrator.logExtraction`: the INSERT is wrapped in try/catch,
so when the write fails (`logOk = false`) the record is simply lost and
nothing propagates. -/
def logExtraction (logOk : Bool) (r : ExtractionRecord)
    (logs : List ExtractionRecord) : List ExtractionRecord :=
  if logOk then logs ++ [r] else logs

/-- `AgentOrchestrator.processPaper`: stage 1 entity extraction, stage 2
relationship extraction, stage 3 validation; successful stages 1 and 2 are
logged, any thrown error is logged once as `full_pipeline` and re-raised.
The two extraction calls (external capability) are parameters; stage
errors are their `message` strings. -/
def processPaper (extractEntities : Except String (List ExtractedEntity))
    (extractRels :
      List ExtractedEntity → Except String (List ExtractedRelationship))
    (logOk : Bool) (paperId : Nat) :
    Except String (List ExtractedEntity × List ExtractedRelationship)
      × List ExtractionRecord :=
  match extractEntities with
  | .error msg =>
    (.error msg,
     logExtraction logOk
       ⟨paperId, "Orchestrator", "full_pipeline", false, some msg⟩ [])
  | .ok ents =>
    let logs1 := logExtraction logOk
      ⟨paperId, "EntityExtractor", "entity", true, none⟩ []
    match extractRels ents with
    | .error msg =>
      (.error msg,
       logExtraction logOk
         ⟨paperId, "Orchestrator", "full_pipeline", false, some msg⟩ logs1)
    | .ok rels =>
      let logs2 := logExtraction logOk
        ⟨paperId, "RelationshipExtractor", "relationship", true, none⟩ logs1
      let ve := validateEntities ents
      (.ok (ve, validateRelationships rels ve), logs2)

/-! ## Edge batch creation (EdgeRepository.createRelationships) -/

/-- One iteration of the `EdgeRepository.createRelationships` loop: resolve
both endpoint names; if either fails, skip the relationship (the loop
continues with the next one), otherwise create the edge and count it. -/
def createRelStep (resolve : Str → Option Nat) (extractedBy : String)
    (acc : Nat × EdgeStore) (rel : ExtractedRelationship) : Nat × EdgeStore :=
  match resolve rel.source, resolve rel.target with
  | some sId, some tId =>
    let r := acc.2.create rel.type sId tId rel.description rel.evidence
      rel.confidence extractedBy (rel.metadata.getD [])
    (acc.1 + 1, r.2)
  | _, _ => acc

/-- `EdgeRepository.createRelationships`: the Entity Resolver
(`resolveEntityId`, a tiered lookup against the current paper's entity map,
the paper's own node and the fuzzy search) is abstracted as the function
`resolve`. Returns the number of created edges. -/
def createRelationships (resolve : Str → Option Nat)
    (rels : List ExtractedRelationship) (extractedBy : String)
    (st : EdgeStore) : Nat × EdgeStore :=
  rels.foldl (createRelStep resolve extractedBy) (0, st)

/-! ## Ingestion pipeline (ingest.ts) -/

/-- `processing_status` values. -/
inductive ProcessingStatus
  | pending | processing | completed | failed
deriving DecidableEq

/-- A row of the `papers` table (only the fields the claims mention). -/
structure PaperRec where
  id : Nat
  title : Str
  status : ProcessingStatus
deriving DecidableEq

/-- `PaperRepository.create`: inserts the paper with status `'pending'`;
fresh ids are assigned sequentially. -/
def createPaper (title : Str) (papers : List PaperRec) :
    PaperRec × List PaperRec :=
  let p : PaperRec := ⟨papers.length, title, ProcessingStatus.pending⟩
  (p, papers ++ [p])

/-- `PaperRepository.updateStatus`. -/
def updateStatus (pid : Nat) (st : ProcessingStatus)
    (papers : List PaperRec) : List PaperRec :=
  papers.map (fun p => if p.id = pid then { p with status := st } else p)

/-- Status of the paper with the given id. -/
def statusOf (pid : Nat) (papers : List PaperRec) :
    Option ProcessingStatus :=
  match papers.find? (fun p => p.id == pid) with
  | some p => some p.status
  | none => none

/-- Title of the paper with the given id. -/
def titleOf (pid : Nat) (papers : List PaperRec) : Option Str :=
  match papers.find? (fun p => p.id == pid) with
  | some p => some p.title
  | none => none

/-- `IngestionPipeline.ingestPaper`: create the paper record, set it to
`processing`, run the extraction stages (orchestrator, node and edge
persistence — abstracted as `run` over an abstract graph state `σ`), then
mark `completed`; on any thrown error mark `failed` and re-raise. -/
def ingestPaper {σ : Type} (run : Nat → σ → Except String σ) (title : Str)
    (papers : List PaperRec) (g : σ) :
    Except String Unit × List PaperRec × σ :=
  let c := createPaper title papers
  let papers2 := updateStatus c.1.id ProcessingStatus.processing c.2
  match run c.1.id g with
  | .ok g' => (.ok (), updateStatus c.1.id ProcessingStatus.completed papers2, g')
  | .error e => (.error e, updateStatus c.1.id ProcessingStatus.failed papers2, g)

/-- Consecutive chunks of size `n` (`papers.slice(i, i + batchSize)` in the
batch loop). The fuel argument makes the recursion structural; it is
initialized with the list length, which always suffices for `n > 0`.
For `n = 0` the source loop never terminates, so no claim covers it. -/
def chunksGo {α : Type} (n : Nat) : Nat → List α → List (List α)
  | _, [] => []
  | 0, _ :: _ => []
  | fuel+1, x :: xs =>
    if n = 0 then []
    else ((x :: xs).take n) :: chunksGo n fuel ((x :: xs).drop n)

/-- The chunk partition processed by `IngestionPipeline.ingestPapers`. -/
def chunkList {α : Type} (n : Nat) (l : List α) : List (List α) :=
  chunksGo n l.length l

/-- One batch of `IngestionPipeline.ingestPapers`: every paper of the chunk
is ingested (`Promise.allSettled` collects each outcome, so one failure
does not cancel siblings), and fulfilled/rejected outcomes increment the
success/failure counters. -/
def ingestBatch {σ : Type} (run : Nat → σ → Except String σ)
    (chunk : List Str) (acc : (Nat × Nat) × List PaperRec × σ) :
    (Nat × Nat) × List PaperRec × σ :=
  chunk.foldl (fun a title =>
    let r := ingestPaper run title a.2.1 a.2.2
    match r.1 with
    | .ok _ => ((a.1.1 + 1, a.1.2), r.2.1, r.2.2)
    | .error _ => ((a.1.1, a.1.2 + 1), r.2.1, r.2.2)) acc

/-- Worker for `ingestPapers`, chunk by chunk (fuel as in `chunksGo`). -/
def ingestPapersGo {σ : Type} (run : Nat → σ → Except String σ) (bs : Nat) :
    Nat → List Str → ((Nat × Nat) × List PaperRec × σ) →
    (Nat × Nat) × List PaperRec × σ
  | _, [], acc => acc
  | 0, _ :: _, acc => acc
  | fuel+1, t :: ts, acc =>
    if bs = 0 then acc
    else ingestPapersGo run bs fuel ((t :: ts).drop bs)
      (ingestBatch run ((t :: ts).take bs) acc)

/-- `IngestionPipeline.ingestPapers`: batch ingestion with success/failure
counters starting at zero. -/
def ingestPapers {σ : Type} (run : Nat → σ → Except String σ) (bs : Nat)
    (titles : List Str) (papers : List PaperRec) (g : σ) :
    (Nat × Nat) × List PaperRec × σ :=
  ingestPapersGo run bs titles.length titles ((0, 0), papers, g)

/-! ### Lemmas about the canonicalizer -/

theorem goodRuns_cons (c : Nat) (t : Str) :
    goodRuns (c :: t) = ((!isWS c || (c == 32 && noLeadWS t)) && goodRuns t) := by
  cases t with
  | nil => simp only [goodRuns, noLeadWS, Bool.and_true]
  | cons d rest => simp only [goodRuns, noLeadWS]

theorem lowerChar_idem (c : Nat) : lowerChar (lowerChar c) = lowerChar c := by
  unfold lowerChar
  split
  · split
    · omega
    · rfl
  · rfl

theorem isWS_lowerChar (c : Nat) : isWS (lowerChar c) = isWS c := by
  unfold lowerChar
  split
  · rename_i h
    have h1 : isWS (c + 32) = false := by simp [isWS]; omega
    have h2 : isWS c = false := by simp [isWS]; omega
    rw [h1, h2]
  · rfl

theorem keepChar_lowerChar (c : Nat) (h : keepChar c = true) :
    keepChar (lowerChar c) = true := by
  unfold lowerChar
  split
  · rename_i hr
    simp [keepChar, isWordChar, isWS]
    omega
  · exact h

theorem keepChar_space : keepChar 32 = true := by decide

theorem collapseAux_nil (b : Bool) : collapseAux b [] = [] := by
  cases b <;> rfl

/-- `collapseAux true` begins with a non-whitespace character (if nonempty). -/
theorem noLeadWS_collapseAux_true (s : Str) :
    noLeadWS (collapseAux true s) = true := by
  induction s with
  | nil => rfl
  | cons c rest ih =>
    by_cases h : isWS c = true
    · simpa [collapseAux, h] using ih
    · simp [collapseAux, h, noLeadWS]

theorem noLeadWS_collapseAux_false (s : Str) (h : noLeadWS s = true) :
    noLeadWS (collapseAux false s) = true := by
  cases s with
  | nil => rfl
  | cons c rest =>
    simp only [noLeadWS, Bool.not_eq_true'] at h
    simp [collapseAux, h, noLeadWS]

/-- The collapsed string has single spaces as its only whitespace. -/
theorem goodRuns_collapseAux (b : Bool) (s : Str) :
    goodRuns (collapseAux b s) = true := by
  induction s generalizing b with
  | nil => rw [collapseAux_nil]; rfl
  | cons c rest ih =>
    by_cases h : isWS c = true
    · cases b with
      | true => simpa [collapseAux, h] using ih true
      | false =>
        rw [show collapseAux false (c :: rest) = 32 :: collapseAux true rest by
          simp [collapseAux, h]]
        rw [goodRuns_cons]
        simp [noLeadWS_collapseAux_true, ih true]
    · simp only [collapseAux, h, if_false, Bool.false_eq_true]
      rw [goodRuns_cons]
      simp [h, ih false]

theorem collapseAux_false_eq_nil_iff (s : Str) :
    collapseAux false s = [] ↔ s = [] := by
  cases s with
  | nil => simp [collapseAux_nil]
  | cons c rest =>
    constructor
    · intro h
      by_cases hc : isWS c = true <;> simp [collapseAux, hc] at h
    · intro h
      exact absurd h (List.cons_ne_nil c rest)

theorem collapseAux_true_eq_nil_iff (s : Str) :
    collapseAux true s = [] ↔ ∀ x ∈ s, isWS x = true := by
  induction s with
  | nil => simp [collapseAux_nil]
  | cons c rest ih =>
    by_cases h : isWS c = true
    · simp [collapseAux, h, ih]
    · simp [collapseAux, h]

/-- On a string not starting with whitespace the flag is irrelevant. -/
theorem collapseAux_true_eq_false (s : Str) (h : noLeadWS s = true) :
    collapseAux true s = collapseAux false s := by
  cases s with
  | nil => rfl
  | cons c rest =>
    simp only [noLeadWS, Bool.not_eq_true'] at h
    simp [collapseAux, h]

/-- A string whose whitespace is already collapsed is a fixed point. -/
theorem collapseAux_false_fixed (s : Str) (h : goodRuns s = true) :
    collapseAux false s = s := by
  induction s with
  | nil => rfl
  | cons c rest ih =>
    rw [goodRuns_cons] at h
    simp only [Bool.and_eq_true, Bool.or_eq_true, Bool.not_eq_true',
      Nat.beq_eq_true_eq] at h
    by_cases hc : isWS c = true
    · rcases h with ⟨hl, hr⟩
      rcases hl with hl | ⟨h32, hlead⟩
      · rw [hl] at hc; exact absurd hc (by simp)
      · subst h32
        rw [show collapseAux false (32 :: rest) = 32 :: collapseAux true rest by
          simp [collapseAux, hc]]
        rw [collapseAux_true_eq_false rest hlead, ih hr]
    · simp [collapseAux, hc, ih h.2]

theorem noLeadWS_of_append (a b : Str) (h : noLeadWS (a ++ b) = true) :
    noLeadWS a = true := by
  cases a with
  | nil => rfl
  | cons c t => simpa [noLeadWS] using h

theorem noTrailWS_cons (c : Nat) (t : Str) (h : t ≠ []) :
    noTrailWS (c :: t) = noTrailWS t := by
  unfold noTrailWS
  rw [List.reverse_cons]
  cases hr : t.reverse with
  | nil => exact absurd (List.reverse_eq_nil_iff.mp hr) h
  | cons d r => simp [noLeadWS]

theorem exists_not_ws_of_noTrail (s : Str) (hne : s ≠ [])
    (h : noTrailWS s = true) : ∃ x ∈ s, isWS x = false := by
  unfold noTrailWS at h
  cases hr : s.reverse with
  | nil => exact absurd (List.reverse_eq_nil_iff.mp hr) hne
  | cons c t =>
    refine ⟨c, ?_, ?_⟩
    · rw [← List.mem_reverse, hr]
      exact List.mem_cons_self c t
    · rw [hr] at h
      simpa [noLeadWS] using h

theorem noTrailWS_collapseAux (s : Str) :
    ∀ b : Bool, noTrailWS s = true → noTrailWS (collapseAux b s) = true := by
  induction s with
  | nil => intro b _; rw [collapseAux_nil]; rfl
  | cons c rest ih =>
    intro b h
    by_cases hrest : rest = []
    · subst hrest
      have hc : isWS c = false := by simpa [noTrailWS, noLeadWS] using h
      cases b <;> simp [collapseAux, hc, noTrailWS, noLeadWS]
    · have hrt : noTrailWS rest = true := by
        rw [← noTrailWS_cons c rest hrest]; exact h
      by_cases hc : isWS c = true
      · cases b with
        | true =>
          rw [show collapseAux true (c :: rest) = collapseAux true rest by
            simp [collapseAux, hc]]
          exact ih true hrt
        | false =>
          rw [show collapseAux false (c :: rest) = 32 :: collapseAux true rest by
            simp [collapseAux, hc]]
          have hne2 : collapseAux true rest ≠ [] := by
            rw [Ne, collapseAux_true_eq_nil_iff]
            intro hall
            obtain ⟨x, hx, hxw⟩ := exists_not_ws_of_noTrail rest hrest hrt
            rw [hall x hx] at hxw
            cases hxw
          rw [noTrailWS_cons 32 _ hne2]
          exact ih true hrt
      · rw [show collapseAux b (c :: rest) = c :: collapseAux false rest by
          cases b <;> simp [collapseAux, hc]]
        have hne2 : collapseAux false rest ≠ [] := by
          rw [Ne, collapseAux_false_eq_nil_iff]; exact hrest
        rw [noTrailWS_cons c _ hne2]
        exact ih false hrt

theorem noLeadWS_dropWhile (s : Str) : noLeadWS (s.dropWhile isWS) = true := by
  induction s with
  | nil => rfl
  | cons c rest ih =>
    by_cases h : isWS c = true
    · rw [List.dropWhile_cons_of_pos h]; exact ih
    · rw [List.dropWhile_cons_of_neg (by simp [h])]
      simpa [noLeadWS] using h

theorem noLeadWS_trim (s : Str) : noLeadWS (trim s) = true := by
  unfold trim
  obtain ⟨v, hv⟩ := (List.dropWhile_suffix
    (l := (s.dropWhile isWS).reverse) isWS)
  have hu : s.dropWhile isWS
      = ((s.dropWhile isWS).reverse.dropWhile isWS).reverse ++ v.reverse := by
    calc s.dropWhile isWS = (s.dropWhile isWS).reverse.reverse := by
          rw [List.reverse_reverse]
      _ = (v ++ (s.dropWhile isWS).reverse.dropWhile isWS).reverse := by rw [hv]
      _ = _ := by rw [List.reverse_append]
  exact noLeadWS_of_append _ _ (hu ▸ noLeadWS_dropWhile s)

theorem noTrailWS_trim (s : Str) : noTrailWS (trim s) = true := by
  unfold noTrailWS trim
  rw [List.reverse_reverse]
  exact noLeadWS_dropWhile _

theorem dropWhile_ws_eq_self (s : Str) (h : noLeadWS s = true) :
    s.dropWhile isWS = s := by
  cases s with
  | nil => rfl
  | cons c t =>
    simp only [noLeadWS, Bool.not_eq_true'] at h
    rw [List.dropWhile_cons_of_neg (by simp [h])]

theorem trim_fixed (s : Str) (h1 : noLeadWS s = true)
    (h2 : noTrailWS s = true) : trim s = s := by
  unfold trim
  rw [dropWhile_ws_eq_self s h1, dropWhile_ws_eq_self s.reverse h2,
    List.reverse_reverse]

theorem mem_dropWhile_ws (x : Nat) (s : Str) (h : x ∈ s.dropWhile isWS) :
    x ∈ s :=
  (List.dropWhile_suffix isWS).subset h

theorem mem_trim (x : Nat) (s : Str) (h : x ∈ trim s) : x ∈ s := by
  unfold trim at h
  rw [List.mem_reverse] at h
  have h2 := mem_dropWhile_ws x _ h
  rw [List.mem_reverse] at h2
  exact mem_dropWhile_ws x s h2

theorem mem_collapseAux (x : Nat) (s : Str) :
    ∀ b : Bool, x ∈ collapseAux b s → x ∈ s ∨ x = 32 := by
  induction s with
  | nil => intro b h; rw [collapseAux_nil] at h; cases h
  | cons c rest ih =>
    intro b h
    by_cases hc : isWS c = true
    · cases b with
      | true =>
        rw [show collapseAux true (c :: rest) = collapseAux true rest by
          simp [collapseAux, hc]] at h
        rcases ih true h with h2 | h2
        · exact Or.inl (List.mem_cons_of_mem c h2)
        · exact Or.inr h2
      | false =>
        rw [show collapseAux false (c :: rest) = 32 :: collapseAux true rest by
          simp [collapseAux, hc]] at h
        rcases List.mem_cons.mp h with h2 | h2
        · exact Or.inr h2
        · rcases ih true h2 with h3 | h3
          · exact Or.inl (List.mem_cons_of_mem c h3)
          · exact Or.inr h3
    · rw [show collapseAux b (c :: rest) = c :: collapseAux false rest by
        cases b <;> simp [collapseAux, hc]] at h
      rcases List.mem_cons.mp h with h2 | h2
      · exact Or.inl (h2 ▸ List.mem_cons_self c rest)
      · rcases ih false h2 with h3 | h3
        · exact Or.inl (List.mem_cons_of_mem c h3)
        · exact Or.inr h3

/-- Core fixed-point fact: one trim-and-collapse pass is idempotent. -/
theorem collapse_trim_idem (z : Str) :
    collapse (trim (collapse (trim z))) = collapse (trim z) := by
  have hlead : noLeadWS (collapse (trim z)) = true :=
    noLeadWS_collapseAux_false _ (noLeadWS_trim z)
  have htrail : noTrailWS (collapse (trim z)) = true :=
    noTrailWS_collapseAux _ false (noTrailWS_trim z)
  have hruns : goodRuns (collapse (trim z)) = true := goodRuns_collapseAux false _
  unfold collapse
  unfold collapse at hlead htrail
  rw [trim_fixed _ hlead htrail]
  exact collapseAux_false_fixed _ hruns

theorem lower_fixed (t : Str) (h : ∀ x ∈ t, lowerChar x = x) : lower t = t := by
  unfold lower
  calc t.map lowerChar = t.map id := List.map_congr_left h
    _ = t := List.map_id t

theorem strip_of_all_kept (s : Str) (h : ∀ x ∈ s, keepChar x = true) :
    strip s = s :=
  List.filter_eq_self.mpr h

/-- Every character of a collapsed-trimmed-lowered string is lower-case
fixed. -/
theorem lowerChar_fixed_on_ct_lower (s : Str) :
    ∀ x ∈ collapse (trim (lower s)), lowerChar x = x := by
  intro x hx
  unfold collapse at hx
  rcases mem_collapseAux x _ false hx with h2 | h2
  · have hx2 : x ∈ lower s := mem_trim x _ h2
    rcases List.mem_map.mp hx2 with ⟨y, _, rfl⟩
    exact lowerChar_idem y
  · rw [h2]; rfl

/-! ### Order bridges for the executable comparisons -/

theorem qmax_eq_max (a b : ℚ) : qmax a b = max a b := by
  rw [qmax, max_def]
  have hb : Rat.blt a b = true ↔ a < b := Iff.rfl
  by_cases h : a < b
  · rw [if_pos (hb.mpr h), if_pos h.le]
  · rw [if_neg (fun hc => h (hb.mp hc))]
    by_cases he : a ≤ b
    · have heq : a = b := le_antisymm he (not_lt.mp h)
      rw [if_pos he, heq]
    · rw [if_neg he]

theorem qmin_eq_min (a b : ℚ) : qmin a b = min a b := by
  rw [qmin, min_def]
  have hb : Rat.blt b a = true ↔ b < a := Iff.rfl
  by_cases h : b < a
  · rw [if_pos (hb.mpr h), if_neg (not_le.mpr h)]
  · rw [if_neg (fun hc => h (hb.mp hc)), if_pos (not_lt.mp h)]

theorem normalizeConfidence_bounds (c : Option ℚ) :
    0 ≤ normalizeConfidence c ∧ normalizeConfidence c ≤ 1 := by
  unfold normalizeConfidence
  rw [qmax_eq_max, qmin_eq_min]
  constructor
  · exact le_max_left 0 _
  · exact max_le zero_le_one (min_le_left 1 _)

theorem normalizeConfidence_half : (mkRat 1 2 : ℚ) = 1/2 := by
  rw [Rat.mkRat_eq_div]
  norm_num

/-! ### Claim theorems -/

/-- C10. In both extraction agents, a candidate confidence that is missing
or exactly 0 is replaced by 0.5 before clamping, and every confidence the
agents output lies in `[0, 1]`; in particular a reported confidence of 0 is
promoted to 0.5 rather than preserved. -/
theorem agents_confidence_normalization :
    (normalizeConfidence none = 1/2 ∧ normalizeConfidence (some 0) = 1/2)
    ∧ (∀ e : RawEntity, e.confidence = none ∨ e.confidence = some 0 →
        (EntityExtractorAgent.normalizeEntity e).confidence = 1/2)
    ∧ (∀ es e', e' ∈ EntityExtractorAgent.normalizeEntities es →
        0 ≤ e'.confidence ∧ e'.confidence ≤ 1)
    ∧ (∀ ents papers rels r',
        r' ∈ RelationshipExtractorAgent.normalizeRelationships ents papers rels →
        0 ≤ r'.confidence ∧ r'.confidence ≤ 1) := by
  have hhalf : normalizeConfidence none = 1/2 ∧ normalizeConfidence (some 0) = 1/2 := by
    constructor
    · show qmax 0 (qmin 1 (mkRat 1 2)) = 1/2
      rw [normalizeConfidence_half, qmax_eq_max, qmin_eq_min]
      norm_num
    · show qmax 0 (qmin 1 (if (0:ℚ) = 0 then mkRat 1 2 else 0)) = 1/2
      rw [if_pos rfl, normalizeConfidence_half, qmax_eq_max, qmin_eq_min]
      norm_num
  refine ⟨hhalf, ?_, ?_, ?_⟩
  · intro e he
    show normalizeConfidence e.confidence = 1/2
    rcases he with he | he <;> rw [he]
    · exact hhalf.1
    · exact hhalf.2
  · intro es e' he'
    rcases List.mem_map.mp he' with ⟨e, _, rfl⟩
    exact normalizeConfidence_bounds e.confidence
  · intro ents papers rels r' hr'
    rcases List.mem_map.mp hr' with ⟨r, _, rfl⟩
    exact normalizeConfidence_bounds r.confidence

/-- Witness for C10 at a concrete candidate with reported confidence 0. -/
theorem agents_confidence_normalization_witness :
    (EntityExtractorAgent.normalizeEntity
      ⟨[97], NodeType.concept, none, some 0, none, none⟩).confidence = 1/2
    ∧ (0 ≤ (EntityExtractorAgent.normalizeEntity
        ⟨[97], NodeType.concept, none, some 0, none, none⟩).confidence
      ∧ (EntityExtractorAgent.normalizeEntity
        ⟨[97], NodeType.concept, none, some 0, none, none⟩).confidence ≤ 1) :=
  ⟨agents_confidence_normalization.2.1
      ⟨[97], NodeType.concept, none, some 0, none, none⟩ (Or.inr rfl),
   agents_confidence_normalization.2.2.1
      [⟨[97], NodeType.concept, none, some 0, none, none⟩]
      (EntityExtractorAgent.normalizeEntity
        ⟨[97], NodeType.concept, none, some 0, none, none⟩)
      (List.mem_map_of_mem _ (List.mem_singleton_self _))⟩

theorem createRel_foldl (resolve : Str → Option Nat) (xb : String) :
    ∀ (rels : List ExtractedRelationship) (acc : Nat × EdgeStore),
    (rels.foldl (createRelStep resolve xb) acc).1
      = acc.1 + (rels.filter (fun r =>
          (resolve r.source).isSome && (resolve r.target).isSome)).length := by
  intro rels
  induction rels with
  | nil => intro acc; simp
  | cons r rest ih =>
    intro acc
    rw [List.foldl_cons, List.filter_cons]
    rcases hs : resolve r.source with _ | sId
    · have hstep : createRelStep resolve xb acc r = acc := by
        simp [createRelStep, hs]
      rw [hstep, ih]
      simp [hs]
    · rcases ht : resolve r.target with _ | tId
      · have hstep : createRelStep resolve xb acc r = acc := by
          simp [createRelStep, hs, ht]
        rw [hstep, ih]
        simp [hs, ht]
      · have hstep : (createRelStep resolve xb acc r).1 = acc.1 + 1 := by
          simp [createRelStep, hs, ht]
        rw [ih, hstep]
        simp [hs, ht]
        omega

/-- C4 (amended). In a batch persisted from extraction, an edge is created
for a relationship exactly when BOTH endpoint names resolve to node ids;
relationships with an unresolved endpoint are skipped without aborting the
batch, and the returned count is the number of relationships whose two
endpoints both resolve. -/
theorem createRelationships_both_endpoints (resolve : Str → Option Nat)
    (rels : List ExtractedRelationship) (xb : String) (st : EdgeStore) :
    (createRelationships resolve rels xb st).1
      = (rels.filter (fun r =>
          (resolve r.source).isSome && (resolve r.target).isSome)).length := by
  unfold createRelationships
  rw [createRel_foldl]
  simp

/-- C4 counterexample: a relationship whose source resolves but whose target
does not is NOT created (the claim says one resolving endpoint suffices). -/
theorem createRelationships_one_endpoint_cex :
    ((fun n => if n = [97] then some 0 else none) ([97] : Str)).isSome = true
    ∧ (createRelationships (fun n => if n = [97] then some 0 else none)
        [⟨[97], [98], EdgeType.related_to, none, none, 1, none⟩]
        "RelationshipExtractor" ⟨[], 0⟩).2.edges = []
    ∧ (createRelationships (fun n => if n = [97] then some 0 else none)
        [⟨[97], [98], EdgeType.related_to, none, none, 1, none⟩]
        "RelationshipExtractor" ⟨[], 0⟩).1 = 0 := by
  refine ⟨rfl, ?_, ?_⟩ <;> decide

/-- C3 counterexample: on `"a . b"` the canonicalizer leaves a double space
(the stripped `.` sat between two spaces), so a second application differs:
`normalizeName "a . b" = "a  b"` but `normalizeName "a  b" = "a b"`. -/
theorem normalizeName_not_idempotent_cex :
    normalizeName [97, 32, 46, 32, 98] = [97, 32, 32, 98]
    ∧ normalizeName (normalizeName [97, 32, 46, 32, 98]) = [97, 32, 98]
    ∧ normalizeName (normalizeName [97, 32, 46, 32, 98])
        ≠ normalizeName [97, 32, 46, 32, 98] := by
  refine ⟨?_, ?_, ?_⟩ <;> decide

/-- C3 (amended). The canonicalizer is idempotent on every input consisting
only of characters the filter keeps (word characters, whitespace, hyphens);
in general a stripped character can leave adjacent or trailing spaces that
only a second pass removes, so idempotence fails (see the counterexample). -/
theorem normalizeName_idem_on_kept_chars (s : Str)
    (h : ∀ c ∈ s, keepChar c = true) :
    normalizeName (normalizeName s) = normalizeName s := by
  have hy : ∀ x ∈ collapse (trim (lower s)), keepChar x = true := by
    intro x hx
    unfold collapse at hx
    rcases mem_collapseAux x _ false hx with h2 | h2
    · have hx2 : x ∈ lower s := mem_trim x _ h2
      rcases List.mem_map.mp hx2 with ⟨y, hy2, rfl⟩
      exact keepChar_lowerChar y (h y hy2)
    · rw [h2]; exact keepChar_space
  have hstrip : strip (collapse (trim (lower s))) = collapse (trim (lower s)) :=
    strip_of_all_kept _ hy
  have hlow : lower (collapse (trim (lower s))) = collapse (trim (lower s)) :=
    lower_fixed _ (lowerChar_fixed_on_ct_lower s)
  unfold normalizeName
  rw [hstrip, hlow, collapse_trim_idem]
  exact hstrip

/-- Witness for C3 (amended) on the kept-characters input `"a  b"`. -/
theorem normalizeName_idem_on_kept_chars_witness :
    (∀ c ∈ ([97, 32, 32, 98] : Str), keepChar c = true)
    ∧ normalizeName (normalizeName [97, 32, 32, 98])
        = normalizeName [97, 32, 32, 98] :=
  ⟨by decide, normalizeName_idem_on_kept_chars [97, 32, 32, 98] (by decide)⟩

/-! ### Metadata-merge lemmas (`jsonb` shallow union) -/

theorem metaLookup_append (k : String) (a b : Meta) :
    metaLookup k (a ++ b) = coalesce (metaLookup k a) (metaLookup k b) := by
  induction a with
  | nil => simp [metaLookup, coalesce]
  | cons p t ih =>
    by_cases h : p.1 = k
    · simp [metaLookup, h, coalesce]
    · simp [metaLookup, h, ih]

theorem metaLookup_filter_keep (k : String) (old new : Meta)
    (hk : metaLookup k new = none) :
    metaLookup k (old.filter (fun p => (metaLookup p.1 new).isNone))
      = metaLookup k old := by
  induction old with
  | nil => rfl
  | cons p t ih =>
    by_cases h : p.1 = k
    · have hcond : (metaLookup p.1 new).isNone = true := by rw [h, hk]; rfl
      rw [List.filter_cons, if_pos hcond]
      simp [metaLookup, h]
    · by_cases hc : (metaLookup p.1 new).isNone = true
      · rw [List.filter_cons, if_pos hc]
        simp [metaLookup, h, ih]
      · rw [List.filter_cons, if_neg hc]
        simp [metaLookup, h, ih]

/-- The lookup semantics of the shallow union: new keys win, old keys
survive. -/
theorem metaMerge_lookup (k : String) (old new : Meta) :
    metaLookup k (metaMerge old new)
      = coalesce (metaLookup k new) (metaLookup k old) := by
  unfold metaMerge
  rw [metaLookup_append]
  cases hk : metaLookup k new with
  | none => simp [coalesce, metaLookup_filter_keep k old new hk]
  | some v => simp [coalesce]

/-! ### Node-store lemmas -/

theorem findNodeKey_eq_some (t : NodeType) (canon : Str) (l : List Node)
    (n : Node) (h : findNodeKey t canon l = some n) :
    n.type = t ∧ n.canonical_name = canon ∧ n ∈ l := by
  induction l with
  | nil => cases h
  | cons m rest ih =>
    by_cases hq : m.type = t ∧ m.canonical_name = canon
    · rw [findNodeKey, if_pos hq] at h
      injection h with h
      subst h
      exact ⟨hq.1, hq.2, List.mem_cons_self m rest⟩
    · rw [findNodeKey, if_neg hq] at h
      rcases ih h with ⟨h1, h2, h3⟩
      exact ⟨h1, h2, List.mem_cons_of_mem m h3⟩

theorem findNodeKey_eq_none (t : NodeType) (canon : Str) (l : List Node) :
    findNodeKey t canon l = none
      ↔ ∀ n ∈ l, ¬(n.type = t ∧ n.canonical_name = canon) := by
  induction l with
  | nil => simp [findNodeKey]
  | cons m rest ih =>
    by_cases hq : m.type = t ∧ m.canonical_name = canon
    · rw [findNodeKey, if_pos hq]
      constructor
      · intro hfalse; cases hfalse
      · intro hall
        exact absurd hq (hall m (List.mem_cons_self m rest))
    · rw [findNodeKey, if_neg hq]
      rw [ih]
      constructor
      · intro hall n hn
        rcases List.mem_cons.mp hn with rfl | hn
        · exact hq
        · exact hall n hn
      · intro hall n hn
        exact hall n (List.mem_cons_of_mem m hn)

theorem findNodeKey_append (t : NodeType) (canon : Str) (l₁ l₂ : List Node) :
    findNodeKey t canon (l₁ ++ l₂)
      = coalesce (findNodeKey t canon l₁) (findNodeKey t canon l₂) := by
  induction l₁ with
  | nil => simp [findNodeKey, coalesce]
  | cons m rest ih =>
    by_cases hq : m.type = t ∧ m.canonical_name = canon
    · simp [findNodeKey, if_pos hq, coalesce]
    · simp [findNodeKey, if_neg hq, ih]

theorem findNodeKey_map (t : NodeType) (canon : Str) (h : Node → Node)
    (hkey : ∀ n, (h n).type = n.type ∧ (h n).canonical_name = n.canonical_name)
    (l : List Node) :
    findNodeKey t canon (l.map h) = (findNodeKey t canon l).map h := by
  induction l with
  | nil => rfl
  | cons m rest ih =>
    have hq : ((h m).type = t ∧ (h m).canonical_name = canon)
        ↔ (m.type = t ∧ m.canonical_name = canon) := by
      rw [(hkey m).1, (hkey m).2]
    by_cases hm : m.type = t ∧ m.canonical_name = canon
    · rw [List.map_cons, findNodeKey, if_pos (hq.mpr hm),
        findNodeKey, if_pos hm]
      rfl
    · rw [List.map_cons, findNodeKey, if_neg (fun hc => hm (hq.mp hc)),
        findNodeKey, if_neg hm, ih]

theorem countNodeKey_map (t : NodeType) (canon : Str) (h : Node → Node)
    (hkey : ∀ n, (h n).type = n.type ∧ (h n).canonical_name = n.canonical_name)
    (l : List Node) :
    countNodeKey t canon (l.map h) = countNodeKey t canon l := by
  induction l with
  | nil => rfl
  | cons m rest ih =>
    have hq : ((h m).type = t ∧ (h m).canonical_name = canon)
        ↔ (m.type = t ∧ m.canonical_name = canon) := by
      rw [(hkey m).1, (hkey m).2]
    by_cases hm : m.type = t ∧ m.canonical_name = canon
    · rw [List.map_cons, countNodeKey, if_pos (hq.mpr hm),
        countNodeKey, if_pos hm, ih]
    · rw [List.map_cons, countNodeKey, if_neg (fun hc => hm (hq.mp hc)),
        countNodeKey, if_neg hm, ih]

theorem countNodeKey_append (t : NodeType) (canon : Str) (l₁ l₂ : List Node) :
    countNodeKey t canon (l₁ ++ l₂)
      = countNodeKey t canon l₁ + countNodeKey t canon l₂ := by
  induction l₁ with
  | nil => simp [countNodeKey]
  | cons m rest ih =>
    rw [List.cons_append, countNodeKey, countNodeKey, ih]
    omega

theorem countNodeKey_eq_zero (t : NodeType) (canon : Str) (l : List Node)
    (h : ∀ n ∈ l, ¬(n.type = t ∧ n.canonical_name = canon)) :
    countNodeKey t canon l = 0 := by
  induction l with
  | nil => rfl
  | cons m rest ih =>
    rw [countNodeKey, if_neg (h m (List.mem_cons_self m rest))]
    rw [ih (fun n hn => h n (List.mem_cons_of_mem m hn))]

theorem nodesUniq_cons (n : Node) (rest : List Node) :
    nodesUniq (n :: rest) = true
      ↔ (∀ m ∈ rest, ¬(m.type = n.type ∧ m.canonical_name = n.canonical_name))
        ∧ nodesUniq rest = true := by
  rw [nodesUniq]
  simp [List.any_eq_true]

theorem countNodeKey_le_one (t : NodeType) (canon : Str) (l : List Node)
    (hu : nodesUniq l = true) : countNodeKey t canon l ≤ 1 := by
  induction l with
  | nil => simp [countNodeKey]
  | cons m rest ih =>
    rcases (nodesUniq_cons m rest).mp hu with ⟨hall, hrest⟩
    by_cases hq : m.type = t ∧ m.canonical_name = canon
    · rw [countNodeKey, if_pos hq]
      have hzero : countNodeKey t canon rest = 0 := by
        apply countNodeKey_eq_zero
        intro n hn hc
        exact hall n hn ⟨hc.1.trans hq.1.symm, hc.2.trans hq.2.symm⟩
      omega
    · rw [countNodeKey, if_neg hq]
      have := ih hrest
      omega

theorem countNodeKey_pos (t : NodeType) (canon : Str) (l : List Node)
    (n : Node) (h : findNodeKey t canon l = some n) :
    1 ≤ countNodeKey t canon l := by
  induction l with
  | nil => cases h
  | cons m rest ih =>
    by_cases hq : m.type = t ∧ m.canonical_name = canon
    · rw [countNodeKey, if_pos hq]; omega
    · rw [findNodeKey, if_neg hq] at h
      rw [countNodeKey, if_neg hq]
      have := ih h
      omega

theorem nodesUniq_map (h : Node → Node)
    (hkey : ∀ n, (h n).type = n.type ∧ (h n).canonical_name = n.canonical_name)
    (l : List Node) : nodesUniq (l.map h) = nodesUniq l := by
  induction l with
  | nil => rfl
  | cons m rest ih =>
    have harg : (fun x => decide ((h x).type = (h m).type
          ∧ (h x).canonical_name = (h m).canonical_name))
        = (fun x => decide (x.type = m.type
          ∧ x.canonical_name = m.canonical_name)) := by
      funext x
      apply decide_eq_decide.mpr
      rw [(hkey x).1, (hkey x).2, (hkey m).1, (hkey m).2]
    rw [List.map_cons, nodesUniq, nodesUniq, List.any_map, ih]
    have : ((fun x => decide (x.type = (h m).type
          ∧ x.canonical_name = (h m).canonical_name)) ∘ h) = (fun x =>
        decide (x.type = m.type ∧ x.canonical_name = m.canonical_name)) := by
      funext x
      apply decide_eq_decide.mpr
      rw [(hkey x).1, (hkey x).2, (hkey m).1, (hkey m).2]
    rw [this]

theorem nodesUniq_append_new (l : List Node) (new : Node)
    (hu : nodesUniq l = true)
    (hno : ∀ n ∈ l,
      ¬(n.type = new.type ∧ n.canonical_name = new.canonical_name)) :
    nodesUniq (l ++ [new]) = true := by
  induction l with
  | nil =>
    rw [List.nil_append]
    exact (nodesUniq_cons new []).mpr ⟨(by intro m hm; cases hm), rfl⟩
  | cons m rest ih =>
    rcases (nodesUniq_cons m rest).mp hu with ⟨hall, hrest⟩
    rw [List.cons_append]
    apply (nodesUniq_cons m (rest ++ [new])).mpr
    constructor
    · intro x hx
      rcases List.mem_append.mp hx with hx | hx
      · exact hall x hx
      · rcases List.mem_singleton.mp hx with rfl
        intro hc
        exact hno m (List.mem_cons_self m rest) ⟨hc.1.symm, hc.2.symm⟩
    · exact ih hrest (fun n hn => hno n (List.mem_cons_of_mem m hn))

theorem applyNodeMerge_key (t : NodeType) (canon : Str) (meta : Meta)
    (c : ℚ) : ∀ n : Node,
    (applyNodeMerge t canon meta c n).type = n.type
    ∧ (applyNodeMerge t canon meta c n).canonical_name = n.canonical_name := by
  intro n
  unfold applyNodeMerge
  split <;> exact ⟨rfl, rfl⟩

/-- Behaviour of one `upsert` call when the key is already present. -/
theorem upsert_found (s : NodeStore) (t : NodeType) (name : Str) (m : Meta)
    (b : String) (c : ℚ) (n : Node) (hu : nodesUniq s.nodes = true)
    (hf : findNodeKey t (normalizeName name) s.nodes = some n) :
    (s.upsert t name m b c).1 = n.id
    ∧ findNodeKey t (normalizeName name) (s.upsert t name m b c).2.nodes
        = some { n with
            metadata := metaMerge n.metadata m,
            extraction_confidence := qmax n.extraction_confidence c }
    ∧ countNodeKey t (normalizeName name) (s.upsert t name m b c).2.nodes = 1
    ∧ nodesUniq (s.upsert t name m b c).2.nodes = true := by
  have hkey := applyNodeMerge_key t (normalizeName name) m c
  have hq : n.type = t ∧ n.canonical_name = normalizeName name := by
    have h3 := findNodeKey_eq_some t (normalizeName name) s.nodes n hf
    exact ⟨h3.1, h3.2.1⟩
  have hup : s.upsert t name m b c
      = (n.id,
         { s with
             nodes :=
               s.nodes.map (applyNodeMerge t (normalizeName name) m c) }) := by
    simp only [NodeStore.upsert]
    rw [hf]
  rw [hup]
  refine ⟨rfl, ?_, ?_, ?_⟩
  · rw [findNodeKey_map t (normalizeName name) _ hkey, hf]
    show some (applyNodeMerge t (normalizeName name) m c n) = _
    unfold applyNodeMerge
    rw [if_pos hq]
  · rw [countNodeKey_map t (normalizeName name) _ hkey]
    have h1 := countNodeKey_le_one t (normalizeName name) s.nodes hu
    have h2 := countNodeKey_pos t (normalizeName name) s.nodes n hf
    omega
  · rw [nodesUniq_map _ hkey]
    exact hu

/-- Behaviour of one `upsert` call when the key is absent. -/
theorem upsert_not_found (s : NodeStore) (t : NodeType) (name : Str)
    (m : Meta) (b : String) (c : ℚ) (hu : nodesUniq s.nodes = true)
    (hf : findNodeKey t (normalizeName name) s.nodes = none) :
    (s.upsert t name m b c).1 = s.nextId
    ∧ findNodeKey t (normalizeName name) (s.upsert t name m b c).2.nodes
        = some { id := s.nextId, type := t, name := name,
                 canonical_name := normalizeName name, metadata := m,
                 extracted_by := b, extraction_confidence := c }
    ∧ countNodeKey t (normalizeName name) (s.upsert t name m b c).2.nodes = 1
    ∧ nodesUniq (s.upsert t name m b c).2.nodes = true := by
  have hall := (findNodeKey_eq_none t (normalizeName name) s.nodes).mp hf
  have hup : s.upsert t name m b c
      = (s.nextId,
         { nodes := s.nodes ++
             [{ id := s.nextId, type := t, name := name,
                canonical_name := normalizeName name, metadata := m,
                extracted_by := b, extraction_confidence := c }],
           nextId := s.nextId + 1 }) := by
    simp only [NodeStore.upsert]
    rw [hf]
  rw [hup]
  refine ⟨rfl, ?_, ?_, ?_⟩
  · rw [findNodeKey_append, hf]
    show coalesce none _ = _
    unfold coalesce
    rw [findNodeKey, if_pos ⟨rfl, rfl⟩]
  · rw [countNodeKey_append, countNodeKey_eq_zero t (normalizeName name)
      s.nodes hall]
    rw [countNodeKey, if_pos ⟨rfl, rfl⟩]
    rfl
  · apply nodesUniq_append_new s.nodes _ hu
    intro x hx hc
    exact hall x hx ⟨hc.1, hc.2⟩

/-- Every `upsert` call leaves exactly one node with the key, and returns
that node's id; the store's uniqueness invariant is preserved. -/
theorem upsert_establishes (s : NodeStore) (t : NodeType) (name : Str)
    (m : Meta) (b : String) (c : ℚ) (hu : nodesUniq s.nodes = true) :
    ∃ n1, findNodeKey t (normalizeName name)
        (s.upsert t name m b c).2.nodes = some n1
      ∧ n1.id = (s.upsert t name m b c).1
      ∧ countNodeKey t (normalizeName name) (s.upsert t name m b c).2.nodes = 1
      ∧ nodesUniq (s.upsert t name m b c).2.nodes = true := by
  cases hf : findNodeKey t (normalizeName name) s.nodes with
  | some n =>
    have h := upsert_found s t name m b c n hu hf
    exact ⟨_, h.2.1, by rw [h.1], h.2.2.1, h.2.2.2⟩
  | none =>
    have h := upsert_not_found s t name m b c hu hf
    exact ⟨_, h.2.1, by rw [h.1], h.2.2.1, h.2.2.2⟩

/-- C1. Node-store upsert is convergent: when a node with key
`(kind, normalize name)` exists, upsert merges into it — metadata becomes
the shallow union in which new top-level keys overwrite old ones,
confidence becomes `max(old, new)` and so never decreases — and repeated
upserts with the same key return the same id and leave exactly one node
with that key. -/
theorem node_upsert_convergent (s : NodeStore) (t : NodeType)
    (name1 name2 : Str) (m1 m2 : Meta) (b1 b2 : String) (c1 c2 : ℚ)
    (hu : nodesUniq s.nodes = true)
    (hnm : normalizeName name2 = normalizeName name1) :
    (((s.upsert t name1 m1 b1 c1).2.upsert t name2 m2 b2 c2)).1
        = (s.upsert t name1 m1 b1 c1).1
    ∧ countNodeKey t (normalizeName name1)
        ((s.upsert t name1 m1 b1 c1).2.upsert t name2 m2 b2 c2).2.nodes = 1
    ∧ ∃ n1 n2,
        findNodeKey t (normalizeName name1)
          (s.upsert t name1 m1 b1 c1).2.nodes = some n1
        ∧ findNodeKey t (normalizeName name1)
            ((s.upsert t name1 m1 b1 c1).2.upsert t name2 m2 b2 c2).2.nodes
          = some n2
        ∧ n1.id = (s.upsert t name1 m1 b1 c1).1
        ∧ n2.id = (s.upsert t name1 m1 b1 c1).1
        ∧ (∀ k, metaLookup k n2.metadata
            = coalesce (metaLookup k m2) (metaLookup k n1.metadata))
        ∧ n2.extraction_confidence = max n1.extraction_confidence c2
        ∧ n1.extraction_confidence ≤ n2.extraction_confidence := by
  obtain ⟨n1, hfind1, hid1, hcount1, hu1⟩ :=
    upsert_establishes s t name1 m1 b1 c1 hu
  have hf2 : findNodeKey t (normalizeName name2)
      (s.upsert t name1 m1 b1 c1).2.nodes = some n1 := by
    rw [hnm]; exact hfind1
  have h2 := upsert_found (s.upsert t name1 m1 b1 c1).2 t name2 m2 b2 c2
    n1 hu1 hf2
  refine ⟨?_, ?_, n1,
    { n1 with
        metadata := metaMerge n1.metadata m2,
        extraction_confidence := qmax n1.extraction_confidence c2 },
    hfind1, ?_, hid1, ?_, ?_, ?_, ?_⟩
  · rw [h2.1, hid1]
  · rw [← hnm]; exact h2.2.2.1
  · rw [← hnm]; exact h2.2.1
  · show ({ n1 with
        metadata := metaMerge n1.metadata m2,
        extraction_confidence := qmax n1.extraction_confidence c2 } : Node).id
        = (s.upsert t name1 m1 b1 c1).1
    exact hid1
  · intro k
    exact metaMerge_lookup k n1.metadata m2
  · show qmax n1.extraction_confidence c2 = max n1.extraction_confidence c2
    exact qmax_eq_max _ _
  · show n1.extraction_confidence
      ≤ qmax n1.extraction_confidence c2
    rw [qmax_eq_max]
    exact le_max_left _ _

/-- Witness for C1: two upserts of the name `"a"` on the empty store. -/
theorem node_upsert_convergent_witness :
    nodesUniq (NodeStore.mk [] 0).nodes = true
    ∧ normalizeName [97] = normalizeName [97]
    ∧ ((((NodeStore.mk [] 0).upsert NodeType.concept [97] [] "system"
          (mkRat 6 10)).2.upsert NodeType.concept [97] [] "system"
          (mkRat 9 10))).1
        = ((NodeStore.mk [] 0).upsert NodeType.concept [97] [] "system"
          (mkRat 6 10)).1 :=
  ⟨by decide, rfl,
   (node_upsert_convergent (NodeStore.mk [] 0) NodeType.concept [97] [97]
     [] [] "system" "system" (mkRat 6 10) (mkRat 9 10) (by decide) rfl).1⟩

/-- C8 counterexample: `upsert` with an empty name does not fail — it
creates a node with empty canonical name and returns its id. -/
theorem upsert_empty_name_cex :
    ((NodeStore.mk [] 0).upsert NodeType.concept [] [] "system" 1).2.nodes.map
        (fun n => (n.id, n.canonical_name)) = [(0, [])]
    ∧ ((NodeStore.mk [] 0).upsert NodeType.concept [] [] "system" 1).1 = 0 := by
  exact ⟨by decide, by decide⟩

/-- C8 (amended). The node store's upsert performs no input validation: an
empty name is accepted, producing (or merging into) exactly one node whose
canonical name is empty and returning that node's id; unknown kinds are not
representable, the kind enumeration being closed. -/
theorem upsert_empty_name_accepted (s : NodeStore) (t : NodeType) (m : Meta)
    (b : String) (c : ℚ) (hu : nodesUniq s.nodes = true) :
    countNodeKey t [] (s.upsert t [] m b c).2.nodes = 1
    ∧ ∃ n, findNodeKey t [] (s.upsert t [] m b c).2.nodes = some n
        ∧ n.id = (s.upsert t [] m b c).1 := by
  obtain ⟨n1, hfind, hid, hcount, _⟩ := upsert_establishes s t [] m b c hu
  have hcanon : normalizeName ([] : Str) = [] := rfl
  rw [hcanon] at hfind hcount
  exact ⟨hcount, n1, hfind, hid⟩

/-- Witness for C8 (amended) on the empty store. -/
theorem upsert_empty_name_accepted_witness :
    nodesUniq (NodeStore.mk [] 0).nodes = true
    ∧ countNodeKey NodeType.concept []
        ((NodeStore.mk [] 0).upsert NodeType.concept [] [] "system" 1).2.nodes
      = 1 :=
  ⟨by decide,
   (upsert_empty_name_accepted (NodeStore.mk [] 0) NodeType.concept []
     "system" 1 (by decide)).1⟩

/-! ### Edge-store lemmas (parallel to the node-store ones) -/

theorem findEdgeKey_eq_some (t : EdgeType) (src tgt : Nat) (l : List Edge)
    (e : Edge) (h : findEdgeKey t src tgt l = some e) :
    e.type = t ∧ e.source_id = src ∧ e.target_id = tgt ∧ e ∈ l := by
  induction l with
  | nil => cases h
  | cons x rest ih =>
    by_cases hq : x.type = t ∧ x.source_id = src ∧ x.target_id = tgt
    · rw [findEdgeKey, if_pos hq] at h
      injection h with h
      subst h
      exact ⟨hq.1, hq.2.1, hq.2.2, List.mem_cons_self x rest⟩
    · rw [findEdgeKey, if_neg hq] at h
      rcases ih h with ⟨h1, h2, h3, h4⟩
      exact ⟨h1, h2, h3, List.mem_cons_of_mem x h4⟩

theorem findEdgeKey_eq_none (t : EdgeType) (src tgt : Nat) (l : List Edge) :
    findEdgeKey t src tgt l = none
      ↔ ∀ e ∈ l, ¬(e.type = t ∧ e.source_id = src ∧ e.target_id = tgt) := by
  induction l with
  | nil => simp [findEdgeKey]
  | cons x rest ih =>
    by_cases hq : x.type = t ∧ x.source_id = src ∧ x.target_id = tgt
    · rw [findEdgeKey, if_pos hq]
      constructor
      · intro hfalse; cases hfalse
      · intro hall
        exact absurd hq (hall x (List.mem_cons_self x rest))
    · rw [findEdgeKey, if_neg hq, ih]
      constructor
      · intro hall e he
        rcases List.mem_cons.mp he with rfl | he
        · exact hq
        · exact hall e he
      · intro hall e he
        exact hall e (List.mem_cons_of_mem x he)

theorem findEdgeKey_append (t : EdgeType) (src tgt : Nat)
    (l₁ l₂ : List Edge) :
    findEdgeKey t src tgt (l₁ ++ l₂)
      = coalesce (findEdgeKey t src tgt l₁) (findEdgeKey t src tgt l₂) := by
  induction l₁ with
  | nil => simp [findEdgeKey, coalesce]
  | cons x rest ih =>
    by_cases hq : x.type = t ∧ x.source_id = src ∧ x.target_id = tgt
    · simp [findEdgeKey, if_pos hq, coalesce]
    · simp [findEdgeKey, if_neg hq, ih]

theorem findEdgeKey_map (t : EdgeType) (src tgt : Nat) (h : Edge → Edge)
    (hkey : ∀ e, (h e).type = e.type ∧ (h e).source_id = e.source_id
      ∧ (h e).target_id = e.target_id) (l : List Edge) :
    findEdgeKey t src tgt (l.map h) = (findEdgeKey t src tgt l).map h := by
  induction l with
  | nil => rfl
  | cons x rest ih =>
    have hq : ((h x).type = t ∧ (h x).source_id = src
          ∧ (h x).target_id = tgt)
        ↔ (x.type = t ∧ x.source_id = src ∧ x.target_id = tgt) := by
      rw [(hkey x).1, (hkey x).2.1, (hkey x).2.2]
    by_cases hm : x.type = t ∧ x.source_id = src ∧ x.target_id = tgt
    · rw [List.map_cons, findEdgeKey, if_pos (hq.mpr hm),
        findEdgeKey, if_pos hm]
      rfl
    · rw [List.map_cons, findEdgeKey, if_neg (fun hc => hm (hq.mp hc)),
        findEdgeKey, if_neg hm, ih]

theorem countEdgeKey_map (t : EdgeType) (src tgt : Nat) (h : Edge → Edge)
    (hkey : ∀ e, (h e).type = e.type ∧ (h e).source_id = e.source_id
      ∧ (h e).target_id = e.target_id) (l : List Edge) :
    countEdgeKey t src tgt (l.map h) = countEdgeKey t src tgt l := by
  induction l with
  | nil => rfl
  | cons x rest ih =>
    have hq : ((h x).type = t ∧ (h x).source_id = src
          ∧ (h x).target_id = tgt)
        ↔ (x.type = t ∧ x.source_id = src ∧ x.target_id = tgt) := by
      rw [(hkey x).1, (hkey x).2.1, (hkey x).2.2]
    by_cases hm : x.type = t ∧ x.source_id = src ∧ x.target_id = tgt
    · rw [List.map_cons, countEdgeKey, if_pos (hq.mpr hm),
        countEdgeKey, if_pos hm, ih]
    · rw [List.map_cons, countEdgeKey, if_neg (fun hc => hm (hq.mp hc)),
        countEdgeKey, if_neg hm, ih]

theorem countEdgeKey_append (t : EdgeType) (src tgt : Nat)
    (l₁ l₂ : List Edge) :
    countEdgeKey t src tgt (l₁ ++ l₂)
      = countEdgeKey t src tgt l₁ + countEdgeKey t src tgt l₂ := by
  induction l₁ with
  | nil => simp [countEdgeKey]
  | cons x rest ih =>
    rw [List.cons_append, countEdgeKey, countEdgeKey, ih]
    omega

theorem countEdgeKey_eq_zero (t : EdgeType) (src tgt : Nat) (l : List Edge)
    (h : ∀ e ∈ l, ¬(e.type = t ∧ e.source_id = src ∧ e.target_id = tgt)) :
    countEdgeKey t src tgt l = 0 := by
  induction l with
  | nil => rfl
  | cons x rest ih =>
    rw [countEdgeKey, if_neg (h x (List.mem_cons_self x rest)),
      ih (fun e he => h e (List.mem_cons_of_mem x he))]

theorem edgesUniq_cons (e : Edge) (rest : List Edge) :
    edgesUniq (e :: rest) = true
      ↔ (∀ x ∈ rest, ¬(x.type = e.type ∧ x.source_id = e.source_id
          ∧ x.target_id = e.target_id))
        ∧ edgesUniq rest = true := by
  rw [edgesUniq]
  simp [List.any_eq_true]

theorem countEdgeKey_le_one (t : EdgeType) (src tgt : Nat) (l : List Edge)
    (hu : edgesUniq l = true) : countEdgeKey t src tgt l ≤ 1 := by
  induction l with
  | nil => simp [countEdgeKey]
  | cons x rest ih =>
    rcases (edgesUniq_cons x rest).mp hu with ⟨hall, hrest⟩
    by_cases hq : x.type = t ∧ x.source_id = src ∧ x.target_id = tgt
    · rw [countEdgeKey, if_pos hq]
      have hzero : countEdgeKey t src tgt rest = 0 := by
        apply countEdgeKey_eq_zero
        intro e he hc
        exact hall e he ⟨hc.1.trans hq.1.symm, hc.2.1.trans hq.2.1.symm,
          hc.2.2.trans hq.2.2.symm⟩
      omega
    · rw [countEdgeKey, if_neg hq]
      have := ih hrest
      omega

theorem countEdgeKey_pos (t : EdgeType) (src tgt : Nat) (l : List Edge)
    (e : Edge) (h : findEdgeKey t src tgt l = some e) :
    1 ≤ countEdgeKey t src tgt l := by
  induction l with
  | nil => cases h
  | cons x rest ih =>
    by_cases hq : x.type = t ∧ x.source_id = src ∧ x.target_id = tgt
    · rw [countEdgeKey, if_pos hq]; omega
    · rw [findEdgeKey, if_neg hq] at h
      rw [countEdgeKey, if_neg hq]
      have := ih h
      omega

theorem edgesUniq_map (h : Edge → Edge)
    (hkey : ∀ e, (h e).type = e.type ∧ (h e).source_id = e.source_id
      ∧ (h e).target_id = e.target_id) (l : List Edge) :
    edgesUniq (l.map h) = edgesUniq l := by
  induction l with
  | nil => rfl
  | cons x rest ih =>
    rw [List.map_cons, edgesUniq, edgesUniq, List.any_map, ih]
    have harg : ((fun y => decide (y.type = (h x).type
          ∧ y.source_id = (h x).source_id
          ∧ y.target_id = (h x).target_id)) ∘ h)
        = (fun y => decide (y.type = x.type ∧ y.source_id = x.source_id
          ∧ y.target_id = x.target_id)) := by
      funext y
      apply decide_eq_decide.mpr
      rw [(hkey y).1, (hkey y).2.1, (hkey y).2.2,
        (hkey x).1, (hkey x).2.1, (hkey x).2.2]
    rw [harg]

theorem edgesUniq_append_new (l : List Edge) (new : Edge)
    (hu : edgesUniq l = true)
    (hno : ∀ e ∈ l, ¬(e.type = new.type ∧ e.source_id = new.source_id
      ∧ e.target_id = new.target_id)) :
    edgesUniq (l ++ [new]) = true := by
  induction l with
  | nil =>
    rw [List.nil_append]
    exact (edgesUniq_cons new []).mpr ⟨(by intro x hx; cases hx), rfl⟩
  | cons x rest ih =>
    rcases (edgesUniq_cons x rest).mp hu with ⟨hall, hrest⟩
    rw [List.cons_append]
    apply (edgesUniq_cons x (rest ++ [new])).mpr
    constructor
    · intro y hy
      rcases List.mem_append.mp hy with hy | hy
      · exact hall y hy
      · rcases List.mem_singleton.mp hy with rfl
        intro hc
        exact hno x (List.mem_cons_self x rest)
          ⟨hc.1.symm, hc.2.1.symm, hc.2.2.symm⟩
    · exact ih hrest (fun e he => hno e (List.mem_cons_of_mem x he))

theorem applyEdgeMerge_key (t : EdgeType) (src tgt : Nat) (d ev : Option String)
    (c : ℚ) (m : Meta) : ∀ e : Edge,
    (applyEdgeMerge t src tgt d ev c m e).type = e.type
    ∧ (applyEdgeMerge t src tgt d ev c m e).source_id = e.source_id
    ∧ (applyEdgeMerge t src tgt d ev c m e).target_id = e.target_id := by
  intro e
  unfold applyEdgeMerge
  split <;> exact ⟨rfl, rfl, rfl⟩

/-- Behaviour of one `create` call when the key is already present. -/
theorem create_found (s : EdgeStore) (t : EdgeType) (src tgt : Nat)
    (d ev : Option String) (c : ℚ) (b : String) (m : Meta) (e : Edge)
    (hu : edgesUniq s.edges = true)
    (hf : findEdgeKey t src tgt s.edges = some e) :
    (s.create t src tgt d ev c b m).1 = e.id
    ∧ findEdgeKey t src tgt (s.create t src tgt d ev c b m).2.edges
        = some { e with
            description := coalesce (orNull d) e.description,
            evidence := coalesce (orNull ev) e.evidence,
            confidence := qmax e.confidence c,
            metadata := metaMerge e.metadata m }
    ∧ countEdgeKey t src tgt (s.create t src tgt d ev c b m).2.edges = 1
    ∧ edgesUniq (s.create t src tgt d ev c b m).2.edges = true := by
  have hkey := applyEdgeMerge_key t src tgt (orNull d) (orNull ev) c m
  have hq : e.type = t ∧ e.source_id = src ∧ e.target_id = tgt := by
    have h3 := findEdgeKey_eq_some t src tgt s.edges e hf
    exact ⟨h3.1, h3.2.1, h3.2.2.1⟩
  have hup : s.create t src tgt d ev c b m
      = (e.id,
         { s with
             edges := s.edges.map (applyEdgeMerge t src tgt (orNull d)
               (orNull ev) c m) }) := by
    simp only [EdgeStore.create]
    rw [hf]
  rw [hup]
  refine ⟨rfl, ?_, ?_, ?_⟩
  · rw [findEdgeKey_map t src tgt _ hkey, hf]
    show some (applyEdgeMerge t src tgt (orNull d) (orNull ev) c m e) = _
    unfold applyEdgeMerge
    rw [if_pos hq]
  · rw [countEdgeKey_map t src tgt _ hkey]
    have h1 := countEdgeKey_le_one t src tgt s.edges hu
    have h2 := countEdgeKey_pos t src tgt s.edges e hf
    omega
  · rw [edgesUniq_map _ hkey]
    exact hu

/-- Behaviour of one `create` call when the key is absent. -/
theorem create_not_found (s : EdgeStore) (t : EdgeType) (src tgt : Nat)
    (d ev : Option String) (c : ℚ) (b : String) (m : Meta)
    (hu : edgesUniq s.edges = true)
    (hf : findEdgeKey t src tgt s.edges = none) :
    (s.create t src tgt d ev c b m).1 = s.nextId
    ∧ findEdgeKey t src tgt (s.create t src tgt d ev c b m).2.edges
        = some { id := s.nextId, type := t, source_id := src,
                 target_id := tgt, description := orNull d,
                 evidence := orNull ev, confidence := c,
                 extracted_by := b, metadata := m }
    ∧ countEdgeKey t src tgt (s.create t src tgt d ev c b m).2.edges = 1
    ∧ edgesUniq (s.create t src tgt d ev c b m).2.edges = true := by
  have hall := (findEdgeKey_eq_none t src tgt s.edges).mp hf
  have hup : s.create t src tgt d ev c b m
      = (s.nextId,
         { edges := s.edges ++
             [{ id := s.nextId, type := t, source_id := src,
                target_id := tgt, description := orNull d,
                evidence := orNull ev, confidence := c,
                extracted_by := b, metadata := m }],
           nextId := s.nextId + 1 }) := by
    simp only [EdgeStore.create]
    rw [hf]
  rw [hup]
  refine ⟨rfl, ?_, ?_, ?_⟩
  · rw [findEdgeKey_append, hf]
    show coalesce none _ = _
    unfold coalesce
    rw [findEdgeKey, if_pos ⟨rfl, rfl, rfl⟩]
  · rw [countEdgeKey_append, countEdgeKey_eq_zero t src tgt s.edges hall,
      countEdgeKey, if_pos ⟨rfl, rfl, rfl⟩]
    rfl
  · apply edgesUniq_append_new s.edges _ hu
    intro x hx hc
    exact hall x hx ⟨hc.1, hc.2.1, hc.2.2⟩

/-- Every `create` call leaves exactly one edge with the key and returns
its id, preserving uniqueness. -/
theorem create_establishes (s : EdgeStore) (t : EdgeType) (src tgt : Nat)
    (d ev : Option String) (c : ℚ) (b : String) (m : Meta)
    (hu : edgesUniq s.edges = true) :
    ∃ x, findEdgeKey t src tgt (s.create t src tgt d ev c b m).2.edges
        = some x
      ∧ x.id = (s.create t src tgt d ev c b m).1
      ∧ countEdgeKey t src tgt (s.create t src tgt d ev c b m).2.edges = 1
      ∧ edgesUniq (s.create t src tgt d ev c b m).2.edges = true := by
  cases hf : findEdgeKey t src tgt s.edges with
  | some e =>
    have h := create_found s t src tgt d ev c b m e hu hf
    exact ⟨_, h.2.1, by rw [h.1], h.2.2.1, h.2.2.2⟩
  | none =>
    have h := create_not_found s t src tgt d ev c b m hu hf
    exact ⟨_, h.2.1, by rw [h.1], h.2.2.1, h.2.2.2⟩

/-- C2 counterexample: re-creating an edge whose evidence is already the
non-empty `"e1"` with the non-empty incoming evidence `"e2"` REPLACES the
stored evidence (the source's `COALESCE(EXCLUDED.evidence, edges.evidence)`
prefers the incoming value whenever it is non-null), while the claim says
the existing value is kept whenever it is non-empty. -/
theorem edge_create_overwrite_cex :
    (((EdgeStore.mk [] 0).create EdgeType.cites 0 1 none (some "e1")
        (mkRat 1 2) "system" []).2.create EdgeType.cites 0 1 none
        (some "e2") (mkRat 9 10) "system" []).2.edges.map
      (fun e => e.evidence) = [some "e2"] := by
  decide

/-- C2 (amended). Edge-store create is idempotent on the key
`(kind, source_id, target_id)`: on conflict, description and evidence are
replaced whenever the INCOMING value is non-empty (an empty or absent
incoming value counts as null and leaves the existing value in place —
regardless of whether the existing value was empty), confidence becomes
`max(old, new)` and never decreases, metadata shallow-unions with new keys
overwriting old ones, the same id is returned, and exactly one edge with
the key remains; in particular, creating an edge with evidence `"e1"` and
re-creating it with evidence null and higher confidence yields one edge
whose evidence is still `"e1"` and whose confidence is the higher value. -/
theorem edge_create_merge (s : EdgeStore) (t : EdgeType) (src tgt : Nat)
    (d1 e1 d2 e2 : Option String) (c1 c2 : ℚ) (b1 b2 : String)
    (m1 m2 : Meta) (hu : edgesUniq s.edges = true) :
    ((s.create t src tgt d1 e1 c1 b1 m1).2.create t src tgt d2 e2 c2 b2
        m2).1 = (s.create t src tgt d1 e1 c1 b1 m1).1
    ∧ countEdgeKey t src tgt
        ((s.create t src tgt d1 e1 c1 b1 m1).2.create t src tgt d2 e2 c2
          b2 m2).2.edges = 1
    ∧ ∃ x1 x2,
        findEdgeKey t src tgt
          (s.create t src tgt d1 e1 c1 b1 m1).2.edges = some x1
        ∧ findEdgeKey t src tgt
            ((s.create t src tgt d1 e1 c1 b1 m1).2.create t src tgt d2 e2
              c2 b2 m2).2.edges = some x2
        ∧ x2.description = coalesce (orNull d2) x1.description
        ∧ x2.evidence = coalesce (orNull e2) x1.evidence
        ∧ x2.confidence = max x1.confidence c2
        ∧ x1.confidence ≤ x2.confidence
        ∧ (∀ k, metaLookup k x2.metadata
            = coalesce (metaLookup k m2) (metaLookup k x1.metadata)) := by
  obtain ⟨x1, hfind1, hid1, hcount1, hu1⟩ :=
    create_establishes s t src tgt d1 e1 c1 b1 m1 hu
  have h2 := create_found (s.create t src tgt d1 e1 c1 b1 m1).2 t src tgt
    d2 e2 c2 b2 m2 x1 hu1 hfind1
  refine ⟨by rw [h2.1, hid1], h2.2.2.1, x1,
    { x1 with
        description := coalesce (orNull d2) x1.description,
        evidence := coalesce (orNull e2) x1.evidence,
        confidence := qmax x1.confidence c2,
        metadata := metaMerge x1.metadata m2 },
    hfind1, h2.2.1, rfl, rfl, qmax_eq_max _ _, ?_, ?_⟩
  · show x1.confidence ≤ qmax x1.confidence c2
    rw [qmax_eq_max]
    exact le_max_left _ _
  · intro k
    exact metaMerge_lookup k x1.metadata m2

/-- Witness for C2 (amended): the claim's own example — evidence `"e1"`
then a second create with null evidence and higher confidence. -/
theorem edge_create_merge_witness :
    edgesUniq (EdgeStore.mk [] 0).edges = true
    ∧ (((EdgeStore.mk [] 0).create EdgeType.cites 0 1 none (some "e1")
          (mkRat 1 2) "system" []).2.create EdgeType.cites 0 1 none none
          (mkRat 9 10) "system" []).1
        = ((EdgeStore.mk [] 0).create EdgeType.cites 0 1 none (some "e1")
          (mkRat 1 2) "system" []).1
    ∧ (((EdgeStore.mk [] 0).create EdgeType.cites 0 1 none (some "e1")
          (mkRat 1 2) "system" []).2.create EdgeType.cites 0 1 none none
          (mkRat 9 10) "system" []).2.edges.map
        (fun e => (e.evidence, e.confidence)) = [(some "e1", mkRat 9 10)] :=
  ⟨by decide,
   (edge_create_merge (EdgeStore.mk [] 0) EdgeType.cites 0 1 none
     (some "e1") none none (mkRat 1 2) (mkRat 9 10) "system" "system" [] []
     (by decide)).1,
   by decide⟩

/-! ### Pipeline lemmas -/

theorem find?_append_of_none {α : Type} (p : α → Bool) (l₁ l₂ : List α)
    (h : l₁.find? p = none) : (l₁ ++ l₂).find? p = l₂.find? p := by
  induction l₁ with
  | nil => rfl
  | cons x rest ih =>
    by_cases hx : p x = true
    · rw [List.find?_cons_of_pos _ hx] at h
      cases h
    · rw [List.find?_cons_of_neg _ hx] at h
      rw [List.cons_append, List.find?_cons_of_neg _ hx]
      exact ih h

theorem updateStatus_fresh (papers : List PaperRec) (p : PaperRec)
    (st : ProcessingStatus) (hids : ∀ q ∈ papers, q.id ≠ p.id) :
    updateStatus p.id st (papers ++ [p])
      = papers ++ [{ p with status := st }] := by
  unfold updateStatus
  rw [List.map_append]
  congr 1
  · calc papers.map (fun q => if q.id = p.id then { q with status := st }
          else q)
        = papers.map id := by
          apply List.map_congr_left
          intro q hq
          rw [if_neg (hids q hq)]
          rfl
      _ = papers := List.map_id papers
  · show [if p.id = p.id then { p with status := st } else p] = _
    rw [if_pos rfl]

theorem statusOf_append_last (papers : List PaperRec) (p : PaperRec)
    (hids : ∀ q ∈ papers, q.id ≠ p.id) :
    statusOf p.id (papers ++ [p]) = some p.status := by
  unfold statusOf
  have hnone : papers.find? (fun q => q.id == p.id) = none := by
    rw [List.find?_eq_none]
    intro q hq
    simp [hids q hq]
  rw [find?_append_of_none _ _ _ hnone]
  simp [List.find?_cons]

theorem titleOf_append_last (papers : List PaperRec) (p : PaperRec)
    (hids : ∀ q ∈ papers, q.id ≠ p.id) :
    titleOf p.id (papers ++ [p]) = some p.title := by
  unfold titleOf
  have hnone : papers.find? (fun q => q.id == p.id) = none := by
    rw [List.find?_eq_none]
    intro q hq
    simp [hids q hq]
  rw [find?_append_of_none _ _ _ hnone]
  simp [List.find?_cons]

/-- C5. Per-paper ingestion creates and commits the Paper record (status
`processing`) before any extraction stage runs; if a stage throws, the
paper is left in the store with status `failed` (not rolled back) and the
error is re-raised to the caller; if every stage succeeds the status ends
`completed` and the record keeps its title. -/
theorem ingestPaper_lifecycle {σ : Type} (run : Nat → σ → Except String σ)
    (title : Str) (papers : List PaperRec) (g : σ)
    (hids : ∀ p ∈ papers, p.id < papers.length) :
    statusOf papers.length
        (updateStatus papers.length ProcessingStatus.processing
          (createPaper title papers).2) = some ProcessingStatus.processing
    ∧ titleOf papers.length (ingestPaper run title papers g).2.1 = some title
    ∧ (∀ e, run papers.length g = .error e →
        (ingestPaper run title papers g).1 = .error e
        ∧ statusOf papers.length (ingestPaper run title papers g).2.1
            = some ProcessingStatus.failed)
    ∧ (∀ g', run papers.length g = .ok g' →
        (ingestPaper run title papers g).1 = .ok ()
        ∧ statusOf papers.length (ingestPaper run title papers g).2.1
            = some ProcessingStatus.completed
        ∧ (ingestPaper run title papers g).2.2 = g') := by
  have heq : ingestPaper run title papers g
      = match run papers.length g with
        | .ok g' =>
          (.ok (), updateStatus papers.length ProcessingStatus.completed
            (updateStatus papers.length ProcessingStatus.processing
              (createPaper title papers).2), g')
        | .error e =>
          (.error e, updateStatus papers.length ProcessingStatus.failed
            (updateStatus papers.length ProcessingStatus.processing
              (createPaper title papers).2), g) := rfl
  have hne : ∀ st : ProcessingStatus, ∀ q ∈ papers,
      q.id ≠ (⟨papers.length, title, st⟩ : PaperRec).id :=
    fun _ q hq => Nat.ne_of_lt (hids q hq)
  have hcp : (createPaper title papers).2
      = papers ++ [⟨papers.length, title, ProcessingStatus.pending⟩] := rfl
  have hproc : updateStatus papers.length ProcessingStatus.processing
        (createPaper title papers).2
      = papers ++ [⟨papers.length, title, ProcessingStatus.processing⟩] := by
    rw [hcp]
    exact updateStatus_fresh papers _ ProcessingStatus.processing
      (hne ProcessingStatus.pending)
  have hstep : ∀ st : ProcessingStatus,
      updateStatus papers.length st
          (papers ++ [⟨papers.length, title, ProcessingStatus.processing⟩])
        = papers ++ [⟨papers.length, title, st⟩] := by
    intro st
    exact updateStatus_fresh papers
      ⟨papers.length, title, ProcessingStatus.processing⟩ st
      (hne ProcessingStatus.processing)
  have hstat : ∀ st : ProcessingStatus,
      statusOf papers.length (papers ++ [⟨papers.length, title, st⟩])
        = some st :=
    fun st => statusOf_append_last papers ⟨papers.length, title, st⟩ (hne st)
  have htitle : ∀ st : ProcessingStatus,
      titleOf papers.length (papers ++ [⟨papers.length, title, st⟩])
        = some title :=
    fun st => titleOf_append_last papers ⟨papers.length, title, st⟩ (hne st)
  refine ⟨?_, ?_, ?_, ?_⟩
  · rw [hproc]
    exact hstat ProcessingStatus.processing
  · rw [heq]
    cases hr : run papers.length g with
    | ok g' =>
      show titleOf papers.length (updateStatus papers.length
        ProcessingStatus.completed (updateStatus papers.length
          ProcessingStatus.processing (createPaper title papers).2)) = _
      rw [hproc, hstep]
      exact htitle ProcessingStatus.completed
    | error e =>
      show titleOf papers.length (updateStatus papers.length
        ProcessingStatus.failed (updateStatus papers.length
          ProcessingStatus.processing (createPaper title papers).2)) = _
      rw [hproc, hstep]
      exact htitle ProcessingStatus.failed
  · intro e hr
    rw [heq, hr]
    refine ⟨rfl, ?_⟩
    show statusOf papers.length (updateStatus papers.length
      ProcessingStatus.failed (updateStatus papers.length
        ProcessingStatus.processing (createPaper title papers).2)) = _
    rw [hproc, hstep]
    exact hstat ProcessingStatus.failed
  · intro g' hr
    rw [heq, hr]
    refine ⟨rfl, ?_, rfl⟩
    show statusOf papers.length (updateStatus papers.length
      ProcessingStatus.completed (updateStatus papers.length
        ProcessingStatus.processing (createPaper title papers).2)) = _
    rw [hproc, hstep]
    exact hstat ProcessingStatus.completed

/-- Witness for C5: a failing stage on the empty store leaves the paper
`failed` with the error re-raised. -/
theorem ingestPaper_lifecycle_witness :
    (∀ p ∈ ([] : List PaperRec), p.id < ([] : List PaperRec).length)
    ∧ ((ingestPaper (fun _ _ => Except.error "boom") [97] [] ()).1
        = Except.error "boom"
      ∧ statusOf 0 (ingestPaper (fun _ _ => Except.error "boom")
          [97] [] ()).2.1 = some ProcessingStatus.failed) :=
  ⟨(by intro p hp; cases hp),
   (ingestPaper_lifecycle (fun _ _ => Except.error "boom") [97] [] ()
     (by intro p hp; cases hp)).2.2.1 "boom" rfl⟩

/-! ### Batch-controller lemmas -/

theorem chunksGo_flatten {α : Type} (n : Nat) (hn : 0 < n) :
    ∀ (fuel : Nat) (l : List α), l.length ≤ fuel →
    (chunksGo n fuel l).flatten = l := by
  intro fuel
  induction fuel with
  | zero =>
    intro l hl
    cases l with
    | nil => rfl
    | cons x xs => simp at hl
  | succ fuel ih =>
    intro l hl
    cases l with
    | nil => rfl
    | cons x xs =>
      rw [chunksGo, if_neg (Nat.pos_iff_ne_zero.mp hn)]
      rw [List.flatten_cons]
      rw [ih ((x :: xs).drop n) (by
        rw [List.length_drop]
        simp only [List.length_cons] at hl ⊢
        omega)]
      exact List.take_append_drop n (x :: xs)

theorem ingestPapersGo_eq_foldl {σ : Type} (run : Nat → σ → Except String σ)
    (bs : Nat) (hbs : 0 < bs) :
    ∀ (fuel : Nat) (ts : List Str) (acc : (Nat × Nat) × List PaperRec × σ),
    ts.length ≤ fuel →
    ingestPapersGo run bs fuel ts acc
      = (chunksGo bs fuel ts).foldl
          (fun a chunk => ingestBatch run chunk a) acc := by
  intro fuel
  induction fuel with
  | zero =>
    intro ts acc hl
    cases ts with
    | nil => rfl
    | cons t ts' => simp at hl
  | succ fuel ih =>
    intro ts acc hl
    cases ts with
    | nil => rfl
    | cons t ts' =>
      rw [ingestPapersGo, chunksGo, if_neg (Nat.pos_iff_ne_zero.mp hbs),
        if_neg (Nat.pos_iff_ne_zero.mp hbs), List.foldl_cons]
      exact ih ((t :: ts').drop bs) _ (by
        rw [List.length_drop]
        simp only [List.length_cons] at hl ⊢
        omega)

theorem ingestBatch_cons {σ : Type} (run : Nat → σ → Except String σ)
    (t : Str) (ts : List Str) (acc : (Nat × Nat) × List PaperRec × σ) :
    ingestBatch run (t :: ts) acc
      = ingestBatch run ts
          (match (ingestPaper run t acc.2.1 acc.2.2).1 with
           | .ok _ => ((acc.1.1 + 1, acc.1.2),
               (ingestPaper run t acc.2.1 acc.2.2).2.1,
               (ingestPaper run t acc.2.1 acc.2.2).2.2)
           | .error _ => ((acc.1.1, acc.1.2 + 1),
               (ingestPaper run t acc.2.1 acc.2.2).2.1,
               (ingestPaper run t acc.2.1 acc.2.2).2.2)) := by
  show ingestBatch run ts _ = ingestBatch run ts _
  congr 1

theorem ingestBatch_counts {σ : Type} (run : Nat → σ → Except String σ) :
    ∀ (chunk : List Str) (acc : (Nat × Nat) × List PaperRec × σ),
    (ingestBatch run chunk acc).1.1 + (ingestBatch run chunk acc).1.2
      = acc.1.1 + acc.1.2 + chunk.length := by
  intro chunk
  induction chunk with
  | nil => intro acc; simp [ingestBatch]
  | cons t ts ih =>
    intro acc
    rw [ingestBatch_cons]
    rcases hr : (ingestPaper run t acc.2.1 acc.2.2).1 with e | u
    · simp only [hr]
      rw [ih ((acc.1.1, acc.1.2 + 1),
        (ingestPaper run t acc.2.1 acc.2.2).2.1,
        (ingestPaper run t acc.2.1 acc.2.2).2.2)]
      simp only [List.length_cons]
      omega
    · simp only [hr]
      rw [ih ((acc.1.1 + 1, acc.1.2),
        (ingestPaper run t acc.2.1 acc.2.2).2.1,
        (ingestPaper run t acc.2.1 acc.2.2).2.2)]
      simp only [List.length_cons]
      omega

theorem foldl_batches_counts {σ : Type} (run : Nat → σ → Except String σ) :
    ∀ (chunks : List (List Str)) (acc : (Nat × Nat) × List PaperRec × σ),
    ((chunks.foldl (fun a chunk => ingestBatch run chunk a) acc)).1.1
      + ((chunks.foldl (fun a chunk => ingestBatch run chunk a) acc)).1.2
      = acc.1.1 + acc.1.2 + (chunks.map List.length).sum := by
  intro chunks
  induction chunks with
  | nil => intro acc; simp
  | cons c cs ih =>
    intro acc
    rw [List.foldl_cons]
    rw [ih (ingestBatch run c acc)]
    rw [ingestBatch_counts run c acc]
    simp only [List.map_cons, List.sum_cons]
    omega

/-- C6. Batch ingestion partitions the input into consecutive chunks of the
batch size and processes them in order — the whole run equals a fold of the
per-chunk processor over that partition, whose concatenation is exactly the
input — every paper in a chunk yields exactly one outcome regardless of its
siblings' outcomes, and the final success and failure counters sum to the
number of input papers. -/
theorem ingestPapers_chunked {σ : Type} (run : Nat → σ → Except String σ)
    (bs : Nat) (titles : List Str) (papers : List PaperRec) (g : σ)
    (hbs : 0 < bs) :
    ingestPapers run bs titles papers g
      = (chunkList bs titles).foldl
          (fun a chunk => ingestBatch run chunk a) ((0, 0), papers, g)
    ∧ (chunkList bs titles).flatten = titles
    ∧ (ingestPapers run bs titles papers g).1.1
        + (ingestPapers run bs titles papers g).1.2 = titles.length := by
  have h1 : ingestPapers run bs titles papers g
      = (chunkList bs titles).foldl
          (fun a chunk => ingestBatch run chunk a) ((0, 0), papers, g) := by
    unfold ingestPapers chunkList
    exact ingestPapersGo_eq_foldl run bs hbs titles.length titles _
      (le_refl _)
  have h2 : (chunkList bs titles).flatten = titles :=
    chunksGo_flatten bs hbs titles.length titles (le_refl _)
  refine ⟨h1, h2, ?_⟩
  rw [h1]
  rw [foldl_batches_counts run (chunkList bs titles) ((0, 0), papers, g)]
  have h3 : ((chunkList bs titles).map List.length).sum
      = (chunkList bs titles).flatten.length := (List.length_flatten _).symm
  rw [h3, h2]
  simp

/-- Witness for C6: three papers, batch size 2, middle paper failing. -/
theorem ingestPapers_chunked_witness :
    (0 : Nat) < 2
    ∧ (ingestPapers (fun i _ => if i = 1 then Except.error "boom"
          else Except.ok ()) 2 [[97], [98], [99]] [] ()).1.1
        + (ingestPapers (fun i _ => if i = 1 then Except.error "boom"
          else Except.ok ()) 2 [[97], [98], [99]] [] ()).1.2 = 3 :=
  ⟨by decide,
   (ingestPapers_chunked (fun i _ => if i = 1 then Except.error "boom"
     else Except.ok ()) 2 [[97], [98], [99]] [] () (by decide)).2.2⟩

/-! ### Orchestrator logging -/

/-- C9 counterexample: on a fully successful run the orchestrator writes
only `entity` and `relationship` records — the validation stage is never
recorded — and when entity extraction throws, the failed attempt is logged
only as a single `full_pipeline` record, not as an `entity` record. -/
theorem extraction_logging_cex :
    ((processPaper (Except.ok []) (fun _ => Except.ok []) true 0).2.map
        (fun r => r.extraction_type)) = ["entity", "relationship"]
    ∧ ((processPaper (Except.error "boom") (fun _ => Except.ok []) true
        0).2.map (fun r => r.extraction_type)) = ["full_pipeline"] := by
  exact ⟨by decide, by decide⟩

/-- C9 (amended). Successful entity and relationship extraction stages are
each recorded as an ExtractionRecord; a stage failure is recorded once as a
`full_pipeline` failure record (not under the failed stage's own type) and
the error is re-raised; the validation stage is never separately recorded;
and a failure while writing any record is swallowed — the pipeline's result
is identical whether record writes succeed or fail. -/
theorem processPaper_logging
    (eE : Except String (List ExtractedEntity))
    (eR : List ExtractedEntity → Except String (List ExtractedRelationship))
    (pid : Nat) :
    (processPaper eE eR true pid).1 = (processPaper eE eR false pid).1
    ∧ (processPaper eE eR false pid).2 = []
    ∧ (∀ msg, eE = .error msg →
        (processPaper eE eR true pid).1 = .error msg
        ∧ (processPaper eE eR true pid).2
            = [⟨pid, "Orchestrator", "full_pipeline", false, some msg⟩])
    ∧ (∀ ents msg, eE = .ok ents → eR ents = .error msg →
        (processPaper eE eR true pid).1 = .error msg
        ∧ (processPaper eE eR true pid).2
            = [⟨pid, "EntityExtractor", "entity", true, none⟩,
               ⟨pid, "Orchestrator", "full_pipeline", false, some msg⟩])
    ∧ (∀ ents rels, eE = .ok ents → eR ents = .ok rels →
        (processPaper eE eR true pid).1
            = .ok (validateEntities ents,
                validateRelationships rels (validateEntities ents))
        ∧ (processPaper eE eR true pid).2
            = [⟨pid, "EntityExtractor", "entity", true, none⟩,
               ⟨pid, "RelationshipExtractor", "relationship", true, none⟩]
        ∧ ∀ r ∈ (processPaper eE eR true pid).2,
            r.extraction_type ≠ "validation") := by
  refine ⟨?_, ?_, ?_, ?_, ?_⟩
  · cases eE with
    | error msg => rfl
    | ok ents =>
      cases hr : eR ents with
      | error msg => simp [processPaper, hr, logExtraction]
      | ok rels => simp [processPaper, hr, logExtraction]
  · cases eE with
    | error msg => rfl
    | ok ents =>
      cases hr : eR ents with
      | error msg => simp [processPaper, hr, logExtraction]
      | ok rels => simp [processPaper, hr, logExtraction]
  · intro msg hmsg
    subst hmsg
    exact ⟨rfl, rfl⟩
  · intro ents msg hok hrel
    subst hok
    refine ⟨?_, ?_⟩ <;> simp [processPaper, hrel, logExtraction]
  · intro ents rels hok hrel
    subst hok
    refine ⟨?_, ?_, ?_⟩
    · simp [processPaper, hrel, logExtraction]
    · simp [processPaper, hrel, logExtraction]
    · intro r hr
      simp only [processPaper, hrel, logExtraction] at hr
      simp at hr
      rcases hr with rfl | rfl <;> simp

/-- Witness for C9 (amended) on concrete succeeding and failing stages. -/
theorem processPaper_logging_witness :
    ((processPaper (Except.ok []) (fun _ => Except.error "rate limit") true
        7).1 = Except.error "rate limit"
      ∧ (processPaper (Except.ok []) (fun _ => Except.error "rate limit")
          true 7).2
        = [⟨7, "EntityExtractor", "entity", true, none⟩,
           ⟨7, "Orchestrator", "full_pipeline", false,
             some "rate limit"⟩]) :=
  (processPaper_logging (Except.ok []) (fun _ => Except.error "rate limit")
    7).2.2.2.1 [] "rate limit" rfl rfl

/-! ### Entity-dedup lemmas (AgentOrchestrator.validateEntities) -/

theorem alookup_append {β : Type} (k : Str) (a b : List (Str × β)) :
    alookup k (a ++ b) = coalesce (alookup k a) (alookup k b) := by
  induction a with
  | nil => simp [alookup, coalesce]
  | cons p t ih =>
    by_cases h : p.1 = k
    · simp [alookup, h, coalesce]
    · simp [alookup, h, ih]

theorem alookup_eq_none {β : Type} (k : Str) (l : List (Str × β)) :
    alookup k l = none ↔ ∀ p ∈ l, p.1 ≠ k := by
  induction l with
  | nil => simp [alookup]
  | cons p t ih =>
    by_cases h : p.1 = k
    · simp [alookup, h]
    · simp [alookup, h, ih]

theorem alookup_replace {β : Type} (k : Str) (v : β) (l : List (Str × β)) :
    alookup k (l.map (fun p => if p.1 = k then (k, v) else p))
      = (alookup k l).map (fun _ => v) := by
  induction l with
  | nil => rfl
  | cons p t ih =>
    by_cases h : p.1 = k
    · simp [alookup, h]
    · simp [alookup, h, ih]

theorem alookup_replace_ne {β : Type} (k k' : Str) (v : β)
    (l : List (Str × β)) (h : k' ≠ k) :
    alookup k' (l.map (fun p => if p.1 = k then (k, v) else p))
      = alookup k' l := by
  induction l with
  | nil => rfl
  | cons p t ih =>
    by_cases hp : p.1 = k
    · have h1 : ¬((k : Str) = k') := fun hc => h hc.symm
      have h2 : ¬(p.1 = k') := fun hc => h ((hp.symm.trans hc).symm)
      simp only [List.map_cons, if_pos hp, alookup]
      rw [if_neg h1, if_neg h2, ih]
    · simp only [List.map_cons, if_neg hp, alookup]
      by_cases hp' : p.1 = k'
      · rw [if_pos hp', if_pos hp']
      · rw [if_neg hp', if_neg hp', ih]

/-- One dedup step at the stepped entity's own key behaves like
`bestStep`. -/
theorem alookup_dedupStep_eq (seen : List (Str × ExtractedEntity))
    (e : ExtractedEntity) :
    alookup (normalizeName e.name) (dedupStep seen e)
      = bestStep (alookup (normalizeName e.name) seen) e := by
  cases h : alookup (normalizeName e.name) seen with
  | none =>
    have hd : dedupStep seen e = seen ++ [(normalizeName e.name, e)] := by
      simp only [dedupStep]
      rw [h]
    rw [hd, alookup_append, h]
    show coalesce none _ = some e
    unfold coalesce
    rw [alookup, if_pos rfl]
  | some ex =>
    have hd : dedupStep seen e
        = if ex.confidence < e.confidence then
            seen.map (fun p => if p.1 = normalizeName e.name then
              (normalizeName e.name, e) else p)
          else seen := by
      simp only [dedupStep]
      rw [h]
    rw [hd]
    show _ = if ex.confidence < e.confidence then some e else some ex
    by_cases hc : ex.confidence < e.confidence
    · rw [if_pos hc, if_pos hc, alookup_replace, h]
      rfl
    · rw [if_neg hc, if_neg hc, h]

/-- One dedup step leaves every other key unchanged. -/
theorem alookup_dedupStep_ne (seen : List (Str × ExtractedEntity))
    (e : ExtractedEntity) (k : Str) (hk : k ≠ normalizeName e.name) :
    alookup k (dedupStep seen e) = alookup k seen := by
  cases h : alookup (normalizeName e.name) seen with
  | none =>
    have hd : dedupStep seen e = seen ++ [(normalizeName e.name, e)] := by
      simp only [dedupStep]
      rw [h]
    rw [hd, alookup_append]
    have h2 : alookup k [(normalizeName e.name, e)] = none := by
      rw [alookup, if_neg (fun hc => hk hc.symm)]
      rfl
    rw [h2]
    cases alookup k seen <;> rfl
  | some ex =>
    have hd : dedupStep seen e
        = if ex.confidence < e.confidence then
            seen.map (fun p => if p.1 = normalizeName e.name then
              (normalizeName e.name, e) else p)
          else seen := by
      simp only [dedupStep]
      rw [h]
    rw [hd]
    by_cases hc : ex.confidence < e.confidence
    · rw [if_pos hc]
      exact alookup_replace_ne (normalizeName e.name) k e seen hk
    · rw [if_neg hc]

/-- The dedup fold, looked up at any key, is the `bestStep` fold over that
key's group. -/
theorem dedup_fold_lookup :
    ∀ (es : List ExtractedEntity) (seen : List (Str × ExtractedEntity))
      (k : Str),
    alookup k (es.foldl dedupStep seen)
      = (es.filter (fun e => decide (normalizeName e.name = k))).foldl
          bestStep (alookup k seen) := by
  intro es
  induction es with
  | nil => intro seen k; rfl
  | cons e rest ih =>
    intro seen k
    rw [List.foldl_cons, List.filter_cons]
    by_cases hk : normalizeName e.name = k
    · rw [if_pos (by simp [hk]), List.foldl_cons, ih]
      subst hk
      rw [alookup_dedupStep_eq]
    · rw [if_neg (by simp [hk]), ih,
        alookup_dedupStep_ne seen e k (fun h => hk h.symm)]

theorem seenWF_dedupStep (seen : List (Str × ExtractedEntity))
    (e : ExtractedEntity) (h : seenWF seen) : seenWF (dedupStep seen e) := by
  obtain ⟨hcoh, hpw⟩ := h
  cases halk : alookup (normalizeName e.name) seen with
  | none =>
    have hd : dedupStep seen e = seen ++ [(normalizeName e.name, e)] := by
      simp only [dedupStep]
      rw [halk]
    rw [hd]
    constructor
    · intro p hp
      rcases List.mem_append.mp hp with hp | hp
      · exact hcoh p hp
      · rcases List.mem_singleton.mp hp with rfl
        rfl
    · rw [List.pairwise_append]
      refine ⟨hpw, List.pairwise_singleton _ _, ?_⟩
      intro a ha b hb
      rcases List.mem_singleton.mp hb with rfl
      exact (alookup_eq_none _ _).mp halk a ha
  | some ex =>
    have hd : dedupStep seen e
        = if ex.confidence < e.confidence then
            seen.map (fun p => if p.1 = normalizeName e.name then
              (normalizeName e.name, e) else p)
          else seen := by
      simp only [dedupStep]
      rw [halk]
    rw [hd]
    by_cases hc : ex.confidence < e.confidence
    · rw [if_pos hc]
      constructor
      · intro p hp
        rcases List.mem_map.mp hp with ⟨q, hq, rfl⟩
        by_cases hq1 : q.1 = normalizeName e.name
        · rw [if_pos hq1]
        · rw [if_neg hq1]
          exact hcoh q hq
      · apply List.Pairwise.map _ _ hpw
        intro a b hab
        by_cases ha : a.1 = normalizeName e.name
          <;> by_cases hb : b.1 = normalizeName e.name
        · exact absurd (ha.trans hb.symm) hab
        · rw [if_pos ha, if_neg hb]
          show normalizeName e.name ≠ b.1
          exact fun hc2 => hb hc2.symm
        · rw [if_neg ha, if_pos hb]
          show a.1 ≠ normalizeName e.name
          exact ha
        · rw [if_neg ha, if_neg hb]
          exact hab
    · rw [if_neg hc]
      exact ⟨hcoh, hpw⟩

theorem seenWF_fold :
    ∀ (es : List ExtractedEntity) (seen : List (Str × ExtractedEntity)),
    seenWF seen → seenWF (es.foldl dedupStep seen) := by
  intro es
  induction es with
  | nil => intro seen h; exact h
  | cons e rest ih =>
    intro seen h
    rw [List.foldl_cons]
    exact ih _ (seenWF_dedupStep seen e h)

/-- Under the invariant, the value list filtered at a canonical name is
empty or the singleton stored at that key. -/
theorem values_filter (seen : List (Str × ExtractedEntity))
    (hwf : seenWF seen) (k : Str) :
    (seen.map (fun p => p.2)).filter
        (fun e => decide (normalizeName e.name = k))
      = (match alookup k seen with
         | some v => [v]
         | none => []) := by
  induction seen with
  | nil => rfl
  | cons p rest ih =>
    obtain ⟨hcoh, hpw⟩ := hwf
    have hchead : normalizeName p.2.name = p.1 :=
      hcoh p (List.mem_cons_self p rest)
    have hwfrest : seenWF rest :=
      ⟨fun q hq => hcoh q (List.mem_cons_of_mem p hq),
       (List.pairwise_cons.mp hpw).2⟩
    by_cases hk : p.1 = k
    · rw [List.map_cons, List.filter_cons,
        if_pos (by simp [hchead, hk])]
      have hnok : ∀ q ∈ rest, q.1 ≠ k := by
        intro q hq hqk
        exact (List.pairwise_cons.mp hpw).1 q hq (hk.trans hqk.symm)
      have hrestf : (rest.map (fun p => p.2)).filter
          (fun e => decide (normalizeName e.name = k)) = [] := by
        rw [List.filter_eq_nil_iff]
        intro e' he'
        rcases List.mem_map.mp he' with ⟨q, hq, rfl⟩
        simp [hcoh q (List.mem_cons_of_mem p hq), hnok q hq]
      rw [hrestf, alookup, if_pos hk]
    · rw [List.map_cons, List.filter_cons,
        if_neg (by simp [hchead, hk]), alookup, if_neg hk]
      exact ih hwfrest

/-- The `bestStep` fold keeps the earliest candidate of maximal
confidence: everything before it is strictly less confident, everything
after it is at most as confident. -/
theorem bestStep_fold_spec :
    ∀ (g : List ExtractedEntity) (o : ExtractedEntity),
    ∃ pre o' suf, g.foldl bestStep (some o) = some o'
      ∧ o :: g = pre ++ o' :: suf
      ∧ (∀ e ∈ pre, e.confidence < o'.confidence)
      ∧ (∀ e ∈ suf, e.confidence ≤ o'.confidence) := by
  intro g
  induction g with
  | nil =>
    intro o
    exact ⟨[], o, [], rfl, rfl, (by intro e he; cases he),
      (by intro e he; cases he)⟩
  | cons e g' ih =>
    intro o
    rw [List.foldl_cons]
    by_cases hlt : o.confidence < e.confidence
    · have hstep : bestStep (some o) e = some e := by
        show (if o.confidence < e.confidence then some e else some o) = some e
        rw [if_pos hlt]
      rw [hstep]
      obtain ⟨pre₂, o', suf₂, hfold, hdec, hpre, hsuf⟩ := ih e
      have he_le : e.confidence ≤ o'.confidence := by
        cases pre₂ with
        | nil =>
          have : e = o' := by
            have := hdec
            rw [List.nil_append] at this
            exact (List.cons.injEq _ _ _ _).mp this |>.1
          rw [this]
        | cons a p =>
          have hh := (List.cons.injEq _ _ _ _).mp
            (by simpa using hdec)
          exact le_of_lt (hh.1 ▸ hpre a (List.mem_cons_self a p))
      refine ⟨o :: pre₂, o', suf₂, hfold, ?_, ?_, hsuf⟩
      · rw [List.cons_append, hdec]
      · intro x hx
        rcases List.mem_cons.mp hx with rfl | hx
        · exact lt_of_lt_of_le hlt he_le
        · exact hpre x hx
    · have hstep : bestStep (some o) e = some o := by
        show (if o.confidence < e.confidence then some e else some o) = some o
        rw [if_neg hlt]
      rw [hstep]
      obtain ⟨pre₂, o', suf₂, hfold, hdec, hpre, hsuf⟩ := ih o
      cases pre₂ with
      | nil =>
        rw [List.nil_append] at hdec
        have heq := (List.cons.injEq _ _ _ _).mp hdec
        refine ⟨[], o, e :: g', ?_, by rw [List.nil_append], ?_, ?_⟩
        · rw [hfold, heq.1]
        · intro x hx; cases hx
        · intro x hx
          rcases List.mem_cons.mp hx with rfl | hx
          · exact not_lt.mp hlt
          · have := hsuf x (heq.2 ▸ hx)
            exact this.trans (by rw [heq.1])
      | cons a p =>
        have heq := (List.cons.injEq _ _ _ _).mp (by simpa using hdec)
        have ho_lt : o.confidence < o'.confidence :=
          heq.1 ▸ hpre a (List.mem_cons_self a p)
        refine ⟨o :: e :: p, o', suf₂, hfold, ?_, ?_, hsuf⟩
        · rw [heq.2]
          rfl
        · intro x hx
          rcases List.mem_cons.mp hx with rfl | hx
          · exact ho_lt
          rcases List.mem_cons.mp hx with rfl | hx
          · exact lt_of_le_of_lt (not_lt.mp hlt) ho_lt
          · exact hpre x (List.mem_cons_of_mem a hx)

theorem bestOf_spec (g : List ExtractedEntity) (hg : g ≠ []) :
    ∃ pre o suf, bestOf g = some o
      ∧ g = pre ++ o :: suf
      ∧ (∀ e ∈ pre, e.confidence < o.confidence)
      ∧ (∀ e ∈ suf, e.confidence ≤ o.confidence) := by
  cases g with
  | nil => exact absurd rfl hg
  | cons e g' =>
    have h0 : bestOf (e :: g') = g'.foldl bestStep (some e) := rfl
    obtain ⟨pre, o, suf, hfold, hdec, hpre, hsuf⟩ := bestStep_fold_spec g' e
    exact ⟨pre, o, suf, h0 ▸ hfold, hdec, hpre, hsuf⟩

/-- C7. The validation stage's entity dedup groups candidates by canonical
name and retains, for every group, exactly one entity: the one with the
maximum confidence, ties resolved by extraction order (the earlier
candidate wins — every candidate before the retained one is strictly less
confident, every one after it at most as confident); canonical names absent
from the input are absent from the output, so the output has one entity
per distinct canonical name of the input. -/
theorem validateEntities_dedup (es : List ExtractedEntity) (k : Str) :
    (es.filter (fun e => decide (normalizeName e.name = k)) = [] →
      (validateEntities es).filter
        (fun e => decide (normalizeName e.name = k)) = [])
    ∧ (es.filter (fun e => decide (normalizeName e.name = k)) ≠ [] →
      ∃ pre o suf,
        (validateEntities es).filter
          (fun e => decide (normalizeName e.name = k)) = [o]
        ∧ es.filter (fun e => decide (normalizeName e.name = k))
            = pre ++ o :: suf
        ∧ (∀ e ∈ pre, e.confidence < o.confidence)
        ∧ (∀ e ∈ suf, e.confidence ≤ o.confidence)) := by
  have hwf : seenWF (es.foldl dedupStep []) :=
    seenWF_fold es [] ⟨(by intro p hp; cases hp), List.Pairwise.nil⟩
  have hlk : alookup k (es.foldl dedupStep [])
      = (es.filter (fun e => decide (normalizeName e.name = k))).foldl
          bestStep none :=
    dedup_fold_lookup es [] k
  have hvals := values_filter _ hwf k
  have hval_def : validateEntities es
      = (es.foldl dedupStep []).map (fun p => p.2) := rfl
  constructor
  · intro hempty
    rw [hval_def, hvals, hlk, hempty]
    rfl
  · intro hne
    obtain ⟨pre, o, suf, hbest, hdec, hpre, hsuf⟩ :=
      bestOf_spec (es.filter (fun e => decide (normalizeName e.name = k)))
        hne
    refine ⟨pre, o, suf, ?_, hdec, hpre, hsuf⟩
    rw [hval_def, hvals, hlk]
    have hb2 : (es.filter
        (fun e => decide (normalizeName e.name = k))).foldl bestStep none
        = some o := hbest
    rw [hb2]

/-- Witness for C7: two candidates named `"a"`, the later more confident. -/
theorem validateEntities_dedup_witness :
    (([⟨[97], NodeType.concept, none, mkRat 6 10, none, none⟩,
       ⟨[97], NodeType.concept, none, mkRat 9 10, none, none⟩]
        : List ExtractedEntity).filter
      (fun e => decide (normalizeName e.name = [97])) ≠ [])
    ∧ ∃ pre o suf,
        (validateEntities
            [⟨[97], NodeType.concept, none, mkRat 6 10, none, none⟩,
             ⟨[97], NodeType.concept, none, mkRat 9 10, none, none⟩]).filter
          (fun e => decide (normalizeName e.name = [97])) = [o]
        ∧ ([⟨[97], NodeType.concept, none, mkRat 6 10, none, none⟩,
            ⟨[97], NodeType.concept, none, mkRat 9 10, none, none⟩]
             : List ExtractedEntity).filter
            (fun e => decide (normalizeName e.name = [97]))
          = pre ++ o :: suf
        ∧ (∀ e ∈ pre, e.confidence < o.confidence)
        ∧ (∀ e ∈ suf, e.confidence ≤ o.confidence) :=
  ⟨by decide,
   (validateEntities_dedup
     [⟨[97], NodeType.concept, none, mkRat 6 10, none, none⟩,
      ⟨[97], NodeType.concept, none, mkRat 9 10, none, none⟩] [97]).2
     (by decide)⟩

end GaussianGraph
